import Mathlib

/-!
Shallow embedding of readthedocs/integrations/models.py (a Python 2 Django
module): the HTTP-exchange store (header normalization and filtering, JSON
serialization with string fallback, per-owner retention trim) and the
integration variant dispatch (IntegrationQuerySet.get, can_sync, has_sync).

Modelling conventions, matching the Python 2 source:
  - Python values reaching json.dumps / str() are modelled by PyValue.
    Numbers are modelled as integers; floating point is out of scope.
    PyValue.obj models an object with no JSON representation (json.dumps
    raises TypeError on it).
  - Python dicts are association lists in insertion order; assignment
    overwrites in place, dict(...) construction folds with overwrite.
  - str.title / str.lower / str.upper act on ASCII letters, as Python 2
    byte strings do.  Integer division is Python 2 floor division
    (Int.fdiv).
  - Django querysets ordered by Meta.ordering = ['-date'] are modelled by
    an insertion sort on the creation stamp, descending.  auto_now_add
    stamps are modelled by a strictly increasing counter.
-/

namespace RTD

/-- A Python value as handled by the module: the JSON-shaped constructors
plus `obj`, an opaque object that json.dumps cannot serialize. -/
inductive PyValue where
  | none
  | bool (b : Bool)
  | int (n : Int)
  | str (s : String)
  | list (xs : List PyValue)
  | dict (kvs : List (String × PyValue))
  | obj (descr : String)

/-- Decimal digit character for d < 10. -/
def digitChar (d : Nat) : Char := Char.ofNat (48 + d)

/-- Decimal digits, least significant digit already in acc; the fuel
bounds the digit count (any fuel at least n suffices). -/
def natCharsGo : Nat → Nat → List Char → List Char
  | 0, _, acc => acc
  | fuel + 1, n, acc =>
    if n < 10 then digitChar n :: acc
    else natCharsGo fuel (n / 10) (digitChar (n % 10) :: acc)

/-- Decimal digits of a natural number, most significant first. -/
def natChars (n : Nat) : List Char := natCharsGo (n + 1) n []

/-- Decimal rendering of an integer: optional minus sign, then digits. -/
def intChars (i : Int) : List Char :=
  (if i < 0 then ['-'] else []) ++ natChars i.natAbs

mutual
/-- Python repr() of a value (used by str() on non-string values). -/
def pyRepr : PyValue → String
  | .none => "None"
  | .bool true => "True"
  | .bool false => "False"
  | .int n => String.mk (intChars n)
  | .str s => "'" ++ s ++ "'"
  | .list xs => "[" ++ pyReprElems xs ++ "]"
  | .dict kvs => "\x7b" ++ pyReprMembers kvs ++ "\x7d"
  | .obj d => d
def pyReprElems : List PyValue → String
  | [] => ""
  | [x] => pyRepr x
  | x :: y :: t => pyRepr x ++ ", " ++ pyReprElems (y :: t)
def pyReprMembers : List (String × PyValue) → String
  | [] => ""
  | [(k, v)] => "'" ++ k ++ "': " ++ pyRepr v
  | (k, v) :: m :: t => "'" ++ k ++ "': " ++ pyRepr v ++ ", " ++ pyReprMembers (m :: t)
end

/-- Python str() of a value: the string itself for strings, repr otherwise. -/
def pythonStr : PyValue → String
  | .str s => s
  | v => pyRepr v

mutual
/-- True iff json.dumps can serialize this value (no opaque object inside). -/
def jsonOk : PyValue → Bool
  | .none => true
  | .bool _ => true
  | .int _ => true
  | .str _ => true
  | .list xs => jsonOkElems xs
  | .dict kvs => jsonOkMembers kvs
  | .obj _ => false
def jsonOkElems : List PyValue → Bool
  | [] => true
  | x :: t => jsonOk x && jsonOkElems t
def jsonOkMembers : List (String × PyValue) → Bool
  | [] => true
  | (_, v) :: t => jsonOk v && jsonOkMembers t
end

/-- Hexadecimal digit character (lowercase, as Python '%04x' emits). -/
def hexChar (d : Nat) : Char :=
  if d < 10 then Char.ofNat (48 + d) else Char.ofNat (87 + d)

/-- Four lowercase hex digits of n < 0x10000, as in a \u escape. -/
def hex4Chars (n : Nat) : List Char :=
  [hexChar (n / 4096 % 16), hexChar (n / 256 % 16), hexChar (n / 16 % 16), hexChar (n % 16)]

/-- One character of a JSON string as json.dumps (ensure_ascii=True) emits
it: printable ASCII other than quote and backslash is literal; the named
escapes cover backspace, tab, newline, formfeed, carriage return; anything
else becomes \uXXXX, with a surrogate pair above the BMP. -/
def escChar (c : Char) : List Char :=
  if c = '"' then ['\\', '"']
  else if c = '\\' then ['\\', '\\']
  else if c = Char.ofNat 8 then ['\\', 'b']
  else if c = Char.ofNat 9 then ['\\', 't']
  else if c = Char.ofNat 10 then ['\\', 'n']
  else if c = Char.ofNat 12 then ['\\', 'f']
  else if c = Char.ofNat 13 then ['\\', 'r']
  else if 32 ≤ c.toNat && c.toNat ≤ 126 then [c]
  else if c.toNat < 65536 then '\\' :: 'u' :: hex4Chars c.toNat
  else
    let m := c.toNat - 65536
    ('\\' :: 'u' :: hex4Chars (55296 + m / 1024)) ++ ('\\' :: 'u' :: hex4Chars (56320 + m % 1024))

/-- A JSON string literal: quote, escaped characters, quote. -/
def strChars (s : String) : List Char :=
  '"' :: (s.data.flatMap escChar ++ ['"'])

/-- Lexicographic order on character lists by code point, as Python 2
compares strings. -/
def charListLe : List Char → List Char → Bool
  | [], _ => true
  | _ :: _, [] => false
  | a :: s, b :: t =>
    if a.toNat < b.toNat then true
    else if b.toNat < a.toNat then false
    else charListLe s t

def strLeB (a b : String) : Bool := charListLe a.data b.data

/-- The key order sort_keys=True sorts object members by. -/
def kvLe (a b : String × PyValue) : Prop := strLeB a.1 b.1 = true

instance kvLe.decRel : DecidableRel kvLe :=
  fun a b => inferInstanceAs (Decidable (strLeB a.1 b.1 = true))

/-- sorted(kvs, key=first component), as sort_keys=True performs: a
stable ascending sort comparing only the keys. -/
def kvSort (l : List (String × PyValue)) : List (String × PyValue) :=
  l.insertionSort kvLe

mutual
/-- Sort every dict in the value by key (recursively).  json.dumps with
sort_keys=True emits each dict in this order, so serializing a value is
serializing its canonical form in plain order. -/
def canon : PyValue → PyValue
  | .none => .none
  | .bool b => .bool b
  | .int n => .int n
  | .str s => .str s
  | .list xs => .list (canonElems xs)
  | .dict kvs => .dict (kvSort (canonMembers kvs))
  | .obj d => .obj d
def canonElems : List PyValue → List PyValue
  | [] => []
  | x :: t => canon x :: canonElems t
def canonMembers : List (String × PyValue) → List (String × PyValue)
  | [] => []
  | (k, v) :: t => (k, canon v) :: canonMembers t
end

/-- The rendering of the three JSON keywords. -/
def nullChars : List Char := ['n', 'u', 'l', 'l']

def trueChars : List Char := ['t', 'r', 'u', 'e']

def falseChars : List Char := ['f', 'a', 'l', 's', 'e']

mutual
/-- JSON serialization in stored order (default separators ", " and ": ").
Total; meaningful only when jsonOk holds. -/
def dumpChars : PyValue → List Char
  | .none => nullChars
  | .bool true => trueChars
  | .bool false => falseChars
  | .int n => intChars n
  | .str s => strChars s
  | .list xs => '[' :: (dumpElems xs ++ [']'])
  | .dict kvs => '\x7b' :: (dumpMembers kvs ++ ['\x7d'])
  | .obj _ => []
def dumpElems : List PyValue → List Char
  | [] => []
  | [x] => dumpChars x
  | x :: y :: t => dumpChars x ++ (',' :: ' ' :: dumpElems (y :: t))
def dumpMembers : List (String × PyValue) → List Char
  | [] => []
  | [(k, v)] => strChars k ++ (':' :: ' ' :: dumpChars v)
  | (k, v) :: m :: t =>
    strChars k ++ (':' :: ' ' :: (dumpChars v ++ (',' :: ' ' :: dumpMembers (m :: t))))
end

/-- json.dumps(v, sort_keys=True): the serialized string, or a TypeError
(modelled as Except.error) when the value is not serializable. -/
def jsonDumps (v : PyValue) : Except Unit String :=
  if jsonOk v then .ok (String.mk (dumpChars (canon v))) else .error ()

/-- The request/response body rule of from_exchange: json.dumps with
sort_keys, falling back to str() on TypeError (models lines 51-54 and
72-75 of the source). -/
def bodyOf (payload : PyValue) : String :=
  match jsonDumps payload with
  | .ok s => s
  | .error _ => pythonStr payload

/-! ### Python dicts as insertion-ordered association lists -/

/-- Python dict assignment d[k] = v: overwrite in place if the key exists,
else append. -/
def dinsert (k : String) (v : String) : List (String × String) → List (String × String)
  | [] => [(k, v)]
  | (k0, v0) :: t => if k0 = k then (k, v) :: t else (k0, v0) :: dinsert k v t

/-- Python dict lookup by key. -/
def dlookup (k : String) : List (String × String) → Option String
  | [] => Option.none
  | (k0, v0) :: t => if k0 = k then some v0 else dlookup k t

/-- dict(pairs): fold the pairs left to right with overwrite. -/
def pairsToDict (pairs : List (String × String)) : List (String × String) :=
  pairs.foldl (fun acc kv => dinsert kv.1 kv.2 acc) []

/-! ### Request header normalization and filtering (from_exchange, lines 55-69) -/

/-- ASCII lowercasing, as Python 2 str.lower / re.I do on byte strings. -/
def asciiLower (c : Char) : Char :=
  if 65 ≤ c.toNat && c.toNat ≤ 90 then Char.ofNat (c.toNat + 32) else c

/-- ASCII uppercasing, as Python 2 str.upper does on byte strings. -/
def asciiUpper (c : Char) : Char :=
  if 97 ≤ c.toNat && c.toNat ≤ 122 then Char.ofNat (c.toNat - 32) else c

/-- ASCII letter test, as Python 2 str.title uses to delimit words. -/
def asciiIsAlpha (c : Char) : Bool :=
  (65 ≤ c.toNat && c.toNat ≤ 90) || (97 ≤ c.toNat && c.toNat ≤ 122)

/-- One character under str.title: a letter is uppercased at a word start
and lowercased inside a word; anything else passes through. -/
def titleChar (prevAlpha : Bool) (c : Char) : Char :=
  if asciiIsAlpha c then (if prevAlpha then asciiLower c else asciiUpper c) else c

/-- Python 2 str.title(): the first letter of each run of ASCII letters is
uppercased, the rest lowercased; any non-letter ends the run.  The flag
carries whether the previous character was a letter. -/
def titleAux (prevAlpha : Bool) : List Char → List Char
  | [] => []
  | c :: t => titleChar prevAlpha c :: titleAux (asciiIsAlpha c) t

def pythonTitle (cs : List Char) : List Char := titleAux false cs

/-- The underscore-to-hyphen substitution of replace('_', '-'). -/
def undToHyphen (c : Char) : Char := if c = '_' then '-' else c

/-- key[5:].title().replace('_', '-'): the source's normalization of a WSGI
HTTP_* key to a Title-Hyphen-Case header name. -/
def normalizeHeaderName (key : String) : String :=
  String.mk ((pythonTitle (key.data.drop 5)).map undToHyphen)

/-- Split a character list on underscores (the separators are dropped). -/
def splitUnderscore : List Char → List (List Char)
  | [] => [[]]
  | c :: t =>
    if c = '_' then [] :: splitUnderscore t
    else
      match splitUnderscore t with
      | [] => [[c]]
      | s :: ss => (c :: s) :: ss

/-- Join character lists with single hyphens between them. -/
def hyphenJoin : List (List Char) → List Char
  | [] => []
  | [s] => s
  | s :: s2 :: ss => s ++ '-' :: hyphenJoin (s2 :: ss)

/-- Modelled from the spec: the claimed normalization algorithm, split the
name on underscores, title-case each segment, join with hyphens.  Stated
for comparison with normalizeHeaderName, which follows the source. -/
def specHeaderName (key : String) : String :=
  String.mk (hyphenJoin ((splitUnderscore (key.data.drop 5)).map pythonTitle))

/-- re.match of `^X-Forwarded-.*$` with re.I: a case-insensitive prefix
"x-forwarded-", then a tail with no newline, except that `$` also matches
just before one trailing newline. -/
def dollarTail (cs : List Char) : Bool :=
  cs.all (fun c => c != '\n') ||
    (match cs.getLast? with
     | some c => c = '\n' && cs.dropLast.all (fun c => c != '\n')
     | Option.none => false)

def matchXForwarded (k : String) : Bool :=
  let l := (k.data.map asciiLower)
  ['x', '-', 'f', 'o', 'r', 'w', 'a', 'r', 'd', 'e', 'd', '-'].isPrefixOf l &&
    dollarTail (l.drop 12)

/-- re.match of `^X-Real-Ip$` with re.I. -/
def matchXRealIp (k : String) : Bool :=
  let l := String.mk (k.data.map asciiLower)
  l = "x-real-ip" || l = "x-real-ip\n"

/-- REQ_FILTER_RULES from the source: a header name is removed when either
rule matches it. -/
def matchesFilterRule (k : String) : Bool :=
  matchXForwarded k || matchXRealIp k

/-- key.startswith('HTTP_'), on the character list so that it reduces. -/
def startsWithHTTP (k : String) : Bool :=
  ['H', 'T', 'T', 'P', '_'].isPrefixOf k.data

/-- The dict comprehension of lines 59-63: walk the META items in order
and, for each HTTP_-prefixed key, assign the normalized name to the
stringified value (later duplicates overwrite). -/
def collectHeaders (acc : List (String × String)) : List (String × PyValue) →
    List (String × String)
  | [] => acc
  | kv :: t =>
    collectHeaders
      (if startsWithHTTP kv.1 then dinsert (normalizeHeaderName kv.1) (pythonStr kv.2) acc
       else acc) t

/-- Lines 59-69 of the source: collect HTTP_-prefixed transport headers
with normalized names and stringified values, set Content-Type from the
request's declared content type, then delete every name a filter rule
matches. -/
def buildRequestHeaders (meta : List (String × PyValue)) (contentType : String) :
    List (String × String) :=
  let withCT := dinsert "Content-Type" contentType (collectHeaders [] meta)
  withCT.filter (fun kv => !matchesFilterRule kv.1)

/-! ### The exchange store -/

/-- The owner handed to from_exchange: an Integration instance, or any
other model instance, identified by its content type (app label, model
name) and primary key. -/
inductive Owner where
  | integration (pk : Nat)
  | entity (appLabel : String) (modelName : String) (pk : Nat)
deriving DecidableEq

/-- The content type pair of the Integration model. -/
def integrationCT : String × String := ("integrations", "integration")

/-- The (content_type, object_id) pair stored on an exchange row for an
owner. -/
def ownerCT : Owner → String × String
  | .integration _ => integrationCT
  | .entity a m _ => (a, m)

def ownerPk : Owner → Nat
  | .integration pk => pk
  | .entity _ _ pk => pk

/-- A stored HttpExchange row.  date models the auto_now_add creation
stamp (strictly increasing across inserts) and doubles as the primary
key; content_type and object_id are the generic owner reference. -/
structure Exchange where
  date : Nat
  ct : String × String
  objectId : Nat
  requestHeaders : List (String × String)
  requestBody : String
  responseHeaders : List (String × String)
  responseBody : String
  statusCode : Int
deriving DecidableEq

/-- A Django request as from_exchange reads it: WSGI META pairs, the
declared content type, and the result of normalize_request_payload (a
collaborator from readthedocs.integrations.utils, not part of this file;
the spec only requires that it yields a structured value or string). -/
structure Request where
  meta : List (String × PyValue)
  contentType : String
  normalizedPayload : PyValue

/-- A response as from_exchange reads it: optional DRF data, raw content,
header items, and the status code. -/
structure Response where
  data : Option PyValue
  content : PyValue
  items : List (String × String)
  statusCode : Int

/-- The exchange table plus the auto_now_add clock. -/
structure Store where
  next : Nat
  rows : List Exchange

def emptyStore : Store := { next := 0, rows := [] }

/-- Does a row belong to the queryset delete_limit builds for this owner?
For an Integration the source filters integrations=related_object (the
generic relation back to that integration); otherwise it filters on the
owner's content type and primary key.  Both resolve to the stored
(content_type, object_id) pair. -/
def inQuerySet (ro : Owner) (e : Exchange) : Bool :=
  match ro with
  | .integration pk => e.ct = integrationCT && e.objectId = pk
  | .entity a m pk => e.ct = (a, m) && e.objectId = pk

/-- Insert into a list sorted by descending date (stable). -/
def insertByDateDesc (x : Exchange) : List Exchange → List Exchange
  | [] => [x]
  | y :: t => if x.date ≥ y.date then x :: y :: t else y :: insertByDateDesc x t

/-- Meta.ordering = ['-date']: the queryset ordered newest first. -/
def orderByDateDesc : List Exchange → List Exchange
  | [] => []
  | x :: t => insertByDateDesc x (orderByDateDesc t)

/-- delete_limit (lines 90-102): order the owner's exchanges newest first
(the queryset under Meta.ordering) and delete every one beyond position
limit (queryset[limit:]). -/
def deleteLimit (st : Store) (ro : Owner) (limit : Nat := 10) : Store :=
  { st with rows := st.rows.filter (fun e =>
      !((orderByDateDesc (st.rows.filter (inQuerySet ro))).drop limit).contains e) }

/-- The row from_exchange inserts, given the creation stamp. -/
def mkExchange (date : Nat) (req : Request) (resp : Response) (ro : Owner)
    (payload : Option PyValue) : Exchange :=
  let requestPayload := payload.getD req.normalizedPayload
  { date := date
    ct := ownerCT ro
    objectId := ownerPk ro
    requestHeaders := buildRequestHeaders req.meta req.contentType
    requestBody := bodyOf requestPayload
    responseHeaders := pairsToDict resp.items
    responseBody := bodyOf (match resp.data with | some d => d | Option.none => resp.content)
    statusCode := resp.statusCode }

/-- from_exchange (lines 32-88): build the field values, insert the row,
then trim the owner's history.  The whole body runs under
@transaction.atomic in the source, so a sequential state transition models
one call. -/
def fromExchange (st : Store) (req : Request) (resp : Response) (ro : Owner)
    (payload : Option PyValue := Option.none) : Store :=
  let e := mkExchange st.next req resp ro payload
  deleteLimit { next := st.next + 1, rows := st.rows ++ [e] } ro

/-- HttpExchange.failed (lines 135-138): int(status_code / 100) != 2 with
Python 2 floor division. -/
def failed (statusCode : Int) : Bool :=
  Int.fdiv statusCode 100 != 2

/-! ### Integration variant dispatch (lines 160-260) -/

/-- A stored Integration row's fields relevant here. -/
structure Integration where
  pk : Nat
  projectPk : Nat
  integrationType : String
  providerData : PyValue

/-- The declared variant classes: proxy subclasses of Integration carrying
an integration_type_id. -/
inductive Variant where
  | generic
  | githubWebhook
  | bitbucketWebhook
deriving DecidableEq

/-- The class map IntegrationQuerySet.get builds from the subclasses that
declare integration_type_id. -/
def classMap : List (String × Variant) :=
  [("github_webhook", Variant.githubWebhook), ("bitbucket_webhook", Variant.bitbucketWebhook)]

/-- The value IntegrationQuerySet.get returns: the loaded record, exposed
through the matched variant class (or the generic Integration class when
no discriminator matches). -/
structure Fetched where
  record : Integration
  variant : Variant

/-- IntegrationQuerySet.get, after the underlying single-row lookup: map
integration_type through the class map; on a hit, a variant instance
carrying all the loaded record's fields; otherwise the record unchanged. -/
def querySetGet (old : Integration) : Fetched :=
  match classMap.lookup old.integrationType with
  | Option.none => { record := old, variant := Variant.generic }
  | some v => { record := old, variant := v }

/-- Is the first list a contiguous sublist of the second? -/
def listSubstring (n : List Char) : List Char → Bool
  | [] => n.isPrefixOf []
  | c :: t => n.isPrefixOf (c :: t) || listSubstring n t

/-- Python `k in v`: key membership for dicts, element membership for
lists, substring for strings, TypeError (modelled as error) otherwise. -/
def pyContains (k : String) : PyValue → Except Unit Bool
  | .dict kvs => .ok (kvs.any (fun kv => kv.1 = k))
  | .list xs =>
    .ok (xs.any (fun x => match x with | PyValue.str s => s = k | _ => false))
  | .str s => .ok (listSubstring k.data s.data)
  | _ => .error ()

/-- can_sync on GitHubWebhook / BitbucketWebhook (lines 239-244, 255-260):
all(k in provider_data for k in ['id', 'url']), with ValueError/TypeError
caught and turned into False. -/
def canSyncValue (pd : PyValue) : Bool :=
  match pyContains "id" pd with
  | .error _ => false
  | .ok false => false
  | .ok true =>
    match pyContains "url" pd with
    | .error _ => false
    | .ok b => b

/-- The can_sync capability of a fetched value: absent on the generic
Integration class, computed from provider_data on the two webhook
variants. -/
def canSync (f : Fetched) : Option Bool :=
  match f.variant with
  | Variant.generic => Option.none
  | _ => some (canSyncValue f.record.providerData)

/-- The has_sync class attribute: False on Integration, True on
GitHubWebhook and BitbucketWebhook. -/
def hasSync (f : Fetched) : Bool :=
  match f.variant with
  | Variant.generic => false
  | _ => true

/-! ### Generic character facts used below -/

theorem char_toNat_ofNat (n : Nat) (h : n.isValidChar) : (Char.ofNat n).toNat = n := by
  rw [Char.ofNat, dif_pos h]
  simp [Char.ofNatAux, Char.toNat, UInt32.toNat, BitVec.toNat_ofNatLt]

theorem char_eq_of_toNat (a b : Char) (h : a.toNat = b.toNat) : a = b :=
  Char.ext (UInt32.ext h)

/-! ### C5: the failed property -/

/-- C5: for every integer status code, HttpExchange.failed is true exactly
when the Python 2 floor division of the code by 100 differs from 2; in
particular it is true at 404, 500, 150 and 399 and false at 200, 204 and
299. -/
theorem failed_division_rule :
    (∀ c : Int, failed c = true ↔ Int.fdiv c 100 ≠ 2) ∧
    failed 404 = true ∧ failed 500 = true ∧ failed 150 = true ∧ failed 399 = true ∧
    failed 200 = false ∧ failed 204 = false ∧ failed 299 = false := by
  refine ⟨fun c => ?_, by decide, by decide, by decide, by decide, by decide, by decide, by decide⟩
  simp [failed, bne_iff_ne]

/-- An Integration row used in concrete instances of the fetch claims. -/
def mkRow (t : String) (pd : PyValue) : Integration :=
  { pk := 1
    projectPk := 2
    integrationType := t
    providerData := pd }

/-- How querySetGet evaluates once both discriminator comparisons are
settled. -/
theorem querySetGet_eval (row : Integration) :
    (row.integrationType = "github_webhook" →
      querySetGet row = { record := row, variant := Variant.githubWebhook }) ∧
    (row.integrationType = "bitbucket_webhook" →
      querySetGet row = { record := row, variant := Variant.bitbucketWebhook }) ∧
    (row.integrationType ≠ "github_webhook" → row.integrationType ≠ "bitbucket_webhook" →
      querySetGet row = { record := row, variant := Variant.generic }) := by
  refine ⟨fun h => ?_, fun h => ?_, fun h1 h2 => ?_⟩
  · simp [querySetGet, classMap, List.lookup, h]
  · simp [querySetGet, classMap, List.lookup, h]
  · have b1 : (row.integrationType == "github_webhook") = false := by
      simp [beq_eq_false_iff_ne, h1]
    have b2 : (row.integrationType == "bitbucket_webhook") = false := by
      simp [beq_eq_false_iff_ne, h2]
    simp [querySetGet, classMap, List.lookup, b1, b2]

/-! ### C10: the has_sync attribute of fetched integrations -/

/-- C10: the value IntegrationQuerySet.get returns carries has_sync true
exactly when the row's integration_type is github_webhook or
bitbucket_webhook; gitlab_webhook and api_webhook rows come back as the
generic class with has_sync false. -/
theorem hasSync_fetch_rule :
    (∀ row : Integration,
      hasSync (querySetGet row) =
        (row.integrationType == "github_webhook" || row.integrationType == "bitbucket_webhook")) ∧
    hasSync (querySetGet (mkRow "gitlab_webhook" PyValue.none)) = false ∧
    hasSync (querySetGet (mkRow "api_webhook" PyValue.none)) = false := by
  refine ⟨fun row => ?_, by decide, by decide⟩
  by_cases h1 : row.integrationType = "github_webhook"
  · rw [(querySetGet_eval row).1 h1, h1]
    simp [hasSync]
  · by_cases h2 : row.integrationType = "bitbucket_webhook"
    · rw [(querySetGet_eval row).2.1 h2, h2]
      simp [hasSync]
    · rw [(querySetGet_eval row).2.2 h1 h2]
      simp [hasSync, h1, h2]

/-! ### C1: fetch dispatch and the can_sync capability -/

/-- C1: fetching a stored row returns a value carrying the loaded record's
fields unchanged; on a github_webhook or bitbucket_webhook row it exposes
can_sync, which is true exactly when both the id and url lookups in
provider_data succeed and hold (a dict with both keys), and false on an
empty dict or malformed provider_data, never an exception; on an
unrecognized integration_type the generic record comes back and no
can_sync capability exists. -/
theorem querySetGet_dispatch (row : Integration) :
    (querySetGet row).record = row ∧
    ((row.integrationType = "github_webhook" ∨ row.integrationType = "bitbucket_webhook") →
      canSync (querySetGet row) = some (canSyncValue row.providerData)) ∧
    (row.integrationType ≠ "github_webhook" → row.integrationType ≠ "bitbucket_webhook" →
      querySetGet row = { record := row, variant := Variant.generic } ∧
      canSync (querySetGet row) = Option.none) ∧
    (∀ pd, canSyncValue pd = true ↔
      (pyContains "id" pd = Except.ok true ∧ pyContains "url" pd = Except.ok true)) ∧
    canSyncValue (PyValue.dict [("id", PyValue.str "1"), ("url", PyValue.str "http://x")]) = true ∧
    canSyncValue (PyValue.dict []) = false ∧
    canSyncValue PyValue.none = false ∧
    canSyncValue (PyValue.int 3) = false := by
  refine ⟨?_, ?_, ?_, ?_, by decide, by decide, by decide, by decide⟩
  · by_cases h1 : row.integrationType = "github_webhook"
    · rw [(querySetGet_eval row).1 h1]
    · by_cases h2 : row.integrationType = "bitbucket_webhook"
      · rw [(querySetGet_eval row).2.1 h2]
      · rw [(querySetGet_eval row).2.2 h1 h2]
  · rintro (h | h)
    · rw [(querySetGet_eval row).1 h]
      rfl
    · rw [(querySetGet_eval row).2.1 h]
      rfl
  · intro h1 h2
    rw [(querySetGet_eval row).2.2 h1 h2]
    exact ⟨rfl, rfl⟩
  · intro pd
    unfold canSyncValue
    rcases hid : pyContains "id" pd with e | b
    · simp [hid]
    · rcases b with _ | _
      · simp [hid]
      · rcases hurl : pyContains "url" pd with e | b2
        · simp [hid, hurl]
        · rcases b2 with _ | _ <;> simp [hid, hurl]

/-- Witness for C1 at concrete rows: a github row with id and url yields
can_sync true; an api_webhook row has no can_sync capability. -/
theorem querySetGet_dispatch_witness :
    canSync (querySetGet (mkRow "github_webhook"
      (PyValue.dict [("id", PyValue.str "1"), ("url", PyValue.str "http://x")]))) = some true ∧
    canSync (querySetGet (mkRow "api_webhook" (PyValue.dict []))) = Option.none := by
  constructor
  · have h := (querySetGet_dispatch (mkRow "github_webhook"
      (PyValue.dict [("id", PyValue.str "1"), ("url", PyValue.str "http://x")]))).2.1 (Or.inl rfl)
    rw [h]
    decide
  · exact ((querySetGet_dispatch (mkRow "api_webhook" (PyValue.dict []))).2.2.1
      (by decide) (by decide)).2

/-! ### C4: serialization fallback never raises -/

/-- A trivial request used to instantiate witnesses. -/
def reqEmpty : Request :=
  { meta := []
    contentType := "text/plain"
    normalizedPayload := PyValue.none }

/-- A trivial response used to instantiate witnesses. -/
def respEmpty : Response :=
  { data := Option.none
    content := PyValue.str ""
    items := []
    statusCode := 200 }

/-- C4: for every payload, the stored request body is the serialize-or-
stringify result; json.dumps fails exactly on non-serializable values, and
in that case the stored body is the payload's plain string form, so
from_exchange never raises on payload shape; the response body follows the
same rule. -/
theorem body_serialization_fallback (p : PyValue) (d : Nat) (req : Request) (resp : Response)
    (ro : Owner) :
    (mkExchange d req resp ro (some p)).requestBody = bodyOf p ∧
    (mkExchange d req resp ro Option.none).requestBody = bodyOf req.normalizedPayload ∧
    (mkExchange d req resp ro (some p)).responseBody
      = bodyOf (match resp.data with | some x => x | Option.none => resp.content) ∧
    (jsonDumps p = Except.error () ↔ jsonOk p = false) ∧
    (jsonDumps p = Except.error () → bodyOf p = pythonStr p) := by
  refine ⟨rfl, rfl, rfl, ?_, ?_⟩
  · unfold jsonDumps
    by_cases h : jsonOk p <;> simp [h]
  · intro herr
    unfold jsonDumps at herr
    unfold bodyOf jsonDumps
    by_cases h : jsonOk p
    · simp [h] at herr
    · simp [h]

/-- Witness for C4: a payload with no JSON representation is stored as its
plain string form. -/
theorem body_serialization_fallback_witness :
    bodyOf (PyValue.obj "<object object at 0x1>") = pythonStr (PyValue.obj "<object object at 0x1>") :=
  (body_serialization_fallback (PyValue.obj "<object object at 0x1>") 0 reqEmpty respEmpty
    (Owner.integration 1)).2.2.2.2 (by rfl)

/-! ### Lookup lemmas for the dict model -/

theorem dlookup_dinsert_self (k v : String) (l : List (String × String)) :
    dlookup k (dinsert k v l) = some v := by
  induction l with
  | nil => simp [dinsert, dlookup]
  | cons hd t ih =>
    by_cases h : hd.1 = k
    · simp [dinsert, dlookup, h]
    · simp [dinsert, dlookup, h, ih]

theorem dlookup_dinsert_other (x k v : String) (l : List (String × String)) (hx : x ≠ k) :
    dlookup x (dinsert k v l) = dlookup x l := by
  have hkx : ¬(k = x) := fun h => hx h.symm
  induction l with
  | nil => simp [dinsert, dlookup, hkx]
  | cons hd t ih =>
    by_cases h : hd.1 = k
    · by_cases h2 : hd.1 = x
      · exact absurd (h2.symm.trans h) hx
      · simp [dinsert, dlookup, h, h2, hkx]
    · simp only [dinsert, h, if_false]
      by_cases h2 : hd.1 = x
      · simp [dlookup, h2]
      · simp [dlookup, h2, ih]

theorem dlookup_filter (k : String) (p : String × String → Bool) (l : List (String × String))
    (hp : ∀ v, p (k, v) = true) :
    dlookup k (l.filter p) = dlookup k l := by
  induction l with
  | nil => rfl
  | cons hd t ih =>
    by_cases h : hd.1 = k
    · have hkeep : p hd = true := by
        have : hd = (k, hd.2) := by
          cases hd
          simp_all
        rw [this]
        exact hp hd.2
      simp [List.filter, hkeep, dlookup, h]
    · cases hkeep : p hd
      · simp [List.filter, hkeep, dlookup, h, ih]
      · simp [List.filter, hkeep, dlookup, h, ih]

/-! ### C9: the Content-Type entry of the stored request headers -/

/-- C9: the persisted request headers always map Content-Type to the
request's declared content type: the entry is assigned after the transport
headers are collected, so it overrides any transport header normalizing to
Content-Type, and no filter rule removes it. -/
theorem requestHeaders_content_type (meta : List (String × PyValue)) (ct : String) (d : Nat)
    (req : Request) (resp : Response) (ro : Owner) (payload : Option PyValue) :
    dlookup "Content-Type" (buildRequestHeaders meta ct) = some ct ∧
    dlookup "Content-Type" (mkExchange d req resp ro payload).requestHeaders
      = some req.contentType := by
  have key : ∀ m c, dlookup "Content-Type" (buildRequestHeaders m c) = some c := by
    intro m c
    unfold buildRequestHeaders
    rw [dlookup_filter]
    · exact dlookup_dinsert_self "Content-Type" c _
    · intro v
      show (!matchesFilterRule "Content-Type") = true
      decide
  exact ⟨key meta ct, key req.meta req.contentType⟩

/-! ### C3 support: the title-case normalization equals split/title/join -/

theorem splitUnderscore_shape (cs : List Char) : ∃ s ss, splitUnderscore cs = s :: ss := by
  induction cs with
  | nil => exact ⟨[], [], rfl⟩
  | cons c t ih =>
    by_cases h : c = '_'
    · exact ⟨[], splitUnderscore t, by simp [splitUnderscore, h]⟩
    · obtain ⟨s, ss, hs⟩ := ih
      exact ⟨c :: s, ss, by simp [splitUnderscore, h, hs]⟩

theorem asciiLower_ne_und (c : Char) (hc : c ≠ '_') : asciiLower c ≠ '_' := by
  intro h
  unfold asciiLower at h
  by_cases hr : (65 ≤ c.toNat && c.toNat ≤ 90) = true
  · rw [if_pos hr] at h
    simp only [Bool.and_eq_true, decide_eq_true_eq] at hr
    have h95 := congrArg Char.toNat h
    rw [char_toNat_ofNat _ (Or.inl (by omega))] at h95
    have hu : Char.toNat '_' = 95 := by decide
    omega
  · rw [if_neg hr] at h
    exact hc h

theorem asciiUpper_ne_und (c : Char) (hc : c ≠ '_') : asciiUpper c ≠ '_' := by
  intro h
  unfold asciiUpper at h
  by_cases hr : (97 ≤ c.toNat && c.toNat ≤ 122) = true
  · rw [if_pos hr] at h
    simp only [Bool.and_eq_true, decide_eq_true_eq] at hr
    have h95 := congrArg Char.toNat h
    rw [char_toNat_ofNat _ (Or.inl (by omega))] at h95
    have hu : Char.toNat '_' = 95 := by decide
    omega
  · rw [if_neg hr] at h
    exact hc h

theorem titleChar_ne_und (b : Bool) (c : Char) (hc : c ≠ '_') : titleChar b c ≠ '_' := by
  unfold titleChar
  by_cases ha : (asciiIsAlpha c) = true
  · rw [if_pos ha]
    cases b
    · exact asciiUpper_ne_und c hc
    · exact asciiLower_ne_und c hc
  · rw [if_neg ha]
    exact hc

/-- Join title-cased segments, tracking the word state into the first
segment only (later segments start after an underscore, hence fresh). -/
def joinSegs (b : Bool) : List (List Char) → List Char
  | [] => []
  | [s] => titleAux b s
  | s :: s2 :: ss => titleAux b s ++ '-' :: joinSegs false (s2 :: ss)

theorem titleAux_split (cs : List Char) : ∀ b,
    (titleAux b cs).map undToHyphen = joinSegs b (splitUnderscore cs) := by
  induction cs with
  | nil => intro b; rfl
  | cons c t ih =>
    intro b
    by_cases h : c = '_'
    · subst h
      have ha : asciiIsAlpha '_' = false := by decide
      have htc : titleChar b '_' = '_' := by simp [titleChar, ha]
      obtain ⟨s, ss, hs⟩ := splitUnderscore_shape t
      show (titleChar b '_' :: titleAux (asciiIsAlpha '_') t).map undToHyphen = _
      rw [htc, ha]
      show '-' :: (titleAux false t).map undToHyphen = joinSegs b (splitUnderscore ('_' :: t))
      rw [ih false]
      show '-' :: joinSegs false (splitUnderscore t) = joinSegs b ([] :: splitUnderscore t)
      rw [hs]
      rfl
    · obtain ⟨s, ss, hs⟩ := splitUnderscore_shape t
      have hsp : splitUnderscore (c :: t) = (c :: s) :: ss := by
        simp [splitUnderscore, h, hs]
      rw [hsp]
      show undToHyphen (titleChar b c) :: (titleAux (asciiIsAlpha c) t).map undToHyphen = _
      have hund : undToHyphen (titleChar b c) = titleChar b c := by
        unfold undToHyphen
        rw [if_neg (titleChar_ne_und b c h)]
      rw [hund, ih (asciiIsAlpha c), hs]
      cases ss with
      | nil => rfl
      | cons s2 ss2 =>
        show titleChar b c :: (titleAux (asciiIsAlpha c) s ++ '-' :: joinSegs false (s2 :: ss2))
          = (titleChar b c :: titleAux (asciiIsAlpha c) s) ++ '-' :: joinSegs false (s2 :: ss2)
        rfl

theorem joinSegs_false_eq : ∀ segs, joinSegs false segs = hyphenJoin (segs.map pythonTitle)
  | [] => rfl
  | [_] => rfl
  | s :: s2 :: ss => by
    show titleAux false s ++ '-' :: joinSegs false (s2 :: ss) = _
    rw [joinSegs_false_eq (s2 :: ss)]
    rfl

/-- The source normalization (title then replace underscores) is the
split-on-underscore, title-case-each-segment, hyphen-join algorithm. -/
theorem normalize_eq_specName (key : String) : normalizeHeaderName key = specHeaderName key := by
  unfold normalizeHeaderName specHeaderName
  rw [show pythonTitle (key.data.drop 5) = titleAux false (key.data.drop 5) from rfl]
  rw [titleAux_split _ false, joinSegs_false_eq]

/-! ### C3 support: lookups in the collected header dict -/

theorem collectHeaders_keep (x w : String) : ∀ (rest : List (String × PyValue))
    (acc : List (String × String)),
    dlookup x acc = some w →
    (∀ k2 v2, (k2, v2) ∈ rest → startsWithHTTP k2 = true →
      normalizeHeaderName k2 = x → pythonStr v2 = w) →
    dlookup x (collectHeaders acc rest) = some w := by
  intro rest
  induction rest with
  | nil => intro acc hacc _; exact hacc
  | cons hd t ih =>
    intro acc hacc hall
    show dlookup x (collectHeaders _ t) = some w
    by_cases hp : startsWithHTTP hd.1 = true
    · by_cases hn : normalizeHeaderName hd.1 = x
      · have hv : pythonStr hd.2 = w := hall hd.1 hd.2 (by simp) hp hn
        apply ih
        · rw [if_pos hp, hn, hv]
          exact dlookup_dinsert_self x w acc
        · intro k2 v2 hm hp2 hn2
          exact hall k2 v2 (by simp [hm]) hp2 hn2
      · apply ih
        · rw [if_pos hp]
          rw [dlookup_dinsert_other x _ _ acc (fun he => hn he.symm)]
          exact hacc
        · intro k2 v2 hm hp2 hn2
          exact hall k2 v2 (by simp [hm]) hp2 hn2
    · apply ih
      · rw [if_neg hp]
        exact hacc
      · intro k2 v2 hm hp2 hn2
        exact hall k2 v2 (by simp [hm]) hp2 hn2

theorem collectHeaders_found (k : String) (v : PyValue) : ∀ (meta : List (String × PyValue))
    (acc : List (String × String)),
    (k, v) ∈ meta →
    startsWithHTTP k = true →
    (∀ k2 v2, (k2, v2) ∈ meta → startsWithHTTP k2 = true →
      normalizeHeaderName k2 = normalizeHeaderName k → k2 = k ∧ v2 = v) →
    dlookup (normalizeHeaderName k) (collectHeaders acc meta) = some (pythonStr v) := by
  intro meta
  induction meta with
  | nil => intro acc hm; cases hm
  | cons hd t ih =>
    intro acc hm hp huniq
    by_cases hmatch : startsWithHTTP hd.1 = true ∧ normalizeHeaderName hd.1 = normalizeHeaderName k
    · obtain ⟨he, hv⟩ := huniq hd.1 hd.2 (by simp) hmatch.1 hmatch.2
      show dlookup _ (collectHeaders _ t) = _
      apply collectHeaders_keep
      · rw [if_pos hmatch.1, hmatch.2, hv]
        exact dlookup_dinsert_self _ _ acc
      · intro k2 v2 hm2 hp2 hn2
        rw [(huniq k2 v2 (by simp [hm2]) hp2 hn2).2]
    · have hmem : (k, v) ∈ t := by
        rcases List.mem_cons.mp hm with hh | ht
        · exfalso
          apply hmatch
          have h1 : hd.1 = k := by rw [← hh]
          constructor
          · rw [h1]; exact hp
          · rw [h1]
        · exact ht
      show dlookup _ (collectHeaders _ t) = _
      apply ih _ hmem hp
      intro k2 v2 hm2 hp2 hn2
      exact huniq k2 v2 (by simp [hm2]) hp2 hn2

/-! ### C3 support: dict construction from verbatim items -/

theorem dinsert_notmem (k : String) (v : String) (l : List (String × String))
    (h : ∀ kv ∈ l, kv.1 ≠ k) : dinsert k v l = l ++ [(k, v)] := by
  induction l with
  | nil => rfl
  | cons hd t ih =>
    have hne : hd.1 ≠ k := h hd (by simp)
    simp only [dinsert, hne, if_false, List.cons_append]
    rw [ih (fun kv hkv => h kv (by simp [hkv]))]

theorem pairsToDict_aux (items : List (String × String)) : ∀ acc,
    (∀ kv ∈ items, ∀ kv2 ∈ acc, kv2.1 ≠ kv.1) →
    (items.map Prod.fst).Nodup →
    items.foldl (fun a kv => dinsert kv.1 kv.2 a) acc = acc ++ items := by
  induction items with
  | nil => intro acc _ _; simp
  | cons hd t ih =>
    intro acc hdisj hnd
    rw [List.foldl_cons, dinsert_notmem hd.1 hd.2 acc (fun kv hkv => hdisj hd (by simp) kv hkv)]
    simp only [List.map_cons, List.nodup_cons] at hnd
    rw [ih (acc ++ [(hd.1, hd.2)]) ?_ hnd.2]
    · simp
    · intro kv hkv kv2 hkv2
      rcases List.mem_append.mp hkv2 with ha | hb
      · exact hdisj kv (by simp [hkv]) kv2 ha
      · have : kv2 = (hd.1, hd.2) := by simpa using hb
        rw [this]
        intro he
        exact hnd.1 (he ▸ List.mem_map_of_mem Prod.fst hkv)

/-- dict(resp.items()) is the items themselves when no header name
repeats. -/
theorem pairsToDict_verbatim (items : List (String × String))
    (hnd : (items.map Prod.fst).Nodup) : pairsToDict items = items := by
  unfold pairsToDict
  rw [pairsToDict_aux items [] (by intro kv _ kv2 h2; cases h2) hnd]
  simp

/-! ### C3: header normalization, filtering, and survival -/

/-- C3 counterexample: a transport header HTTP_CONTENT_TYPE with value "a"
normalizes to Content-Type, matches no filter rule, yet does not survive
with its stringified value: the declared content type "b" overwrites it,
so the claim that every unfiltered header survives with its value is
false. -/
theorem header_survival_counterexample :
    buildRequestHeaders [("HTTP_CONTENT_TYPE", PyValue.str "a")] "b" = [("Content-Type", "b")] ∧
    startsWithHTTP "HTTP_CONTENT_TYPE" = true ∧
    normalizeHeaderName "HTTP_CONTENT_TYPE" = "Content-Type" ∧
    matchesFilterRule "Content-Type" = false ∧
    pythonStr (PyValue.str "a") = "a" ∧
    dlookup (normalizeHeaderName "HTTP_CONTENT_TYPE")
        (buildRequestHeaders [("HTTP_CONTENT_TYPE", PyValue.str "a")] "b")
      ≠ some (pythonStr (PyValue.str "a")) :=
  ⟨by decide, by decide, by decide, by decide, by decide, by decide⟩

/-- C3 (amended): request header names are normalized by the
split-on-underscore, title-case, hyphen-join rule; every header whose
normalized name a filter rule matches (X-Forwarded-* or X-Real-Ip, case
insensitively) is removed; every other transport header survives with its
stringified value provided its normalized name is not Content-Type (which
the declared content type overrides) and no other transport header
normalizes to the same name; response headers are copied verbatim with no
filtering. -/
theorem request_headers_amended :
    (∀ key, normalizeHeaderName key = specHeaderName key) ∧
    (∀ meta ct kv, kv ∈ buildRequestHeaders meta ct → matchesFilterRule kv.1 = false) ∧
    (∀ meta ct k v, (k, v) ∈ meta → startsWithHTTP k = true →
      matchesFilterRule (normalizeHeaderName k) = false →
      normalizeHeaderName k ≠ "Content-Type" →
      (∀ k2 v2, (k2, v2) ∈ meta → startsWithHTTP k2 = true →
        normalizeHeaderName k2 = normalizeHeaderName k → k2 = k ∧ v2 = v) →
      dlookup (normalizeHeaderName k) (buildRequestHeaders meta ct) = some (pythonStr v)) ∧
    (∀ items, (items.map Prod.fst).Nodup → pairsToDict items = items) := by
  refine ⟨normalize_eq_specName, ?_, ?_, pairsToDict_verbatim⟩
  · intro meta ct kv hm
    unfold buildRequestHeaders at hm
    simp only [List.mem_filter, Bool.not_eq_true'] at hm
    exact hm.2
  · intro meta ct k v hm hp hf hct huniq
    unfold buildRequestHeaders
    rw [dlookup_filter]
    · rw [dlookup_dinsert_other _ _ _ _ hct]
      exact collectHeaders_found k v meta [] hm hp huniq
    · intro w
      show (!matchesFilterRule (normalizeHeaderName k)) = true
      rw [hf]
      rfl

/-- Witness for the amended C3: in a header set carrying a User-Agent and
an X-Forwarded-For, the User-Agent survives with its value. -/
theorem request_headers_amended_witness :
    dlookup (normalizeHeaderName "HTTP_USER_AGENT")
        (buildRequestHeaders
          [("HTTP_USER_AGENT", PyValue.str "curl"), ("HTTP_X_FORWARDED_FOR", PyValue.str "p")]
          "application/json")
      = some (pythonStr (PyValue.str "curl")) := by
  refine request_headers_amended.2.2.1 _ "application/json" "HTTP_USER_AGENT"
    (PyValue.str "curl") (by simp) (by decide) (by decide) (by decide) ?_
  intro k2 v2 hm hp2 hn2
  have hm2 : (k2, v2) = ("HTTP_USER_AGENT", PyValue.str "curl") ∨
      (k2, v2) = ("HTTP_X_FORWARDED_FOR", PyValue.str "p") := by simpa using hm
  rcases hm2 with h | h
  · rw [Prod.mk.injEq] at h
    exact h
  · rw [Prod.mk.injEq] at h
    exfalso
    rw [h.1] at hn2
    exact absurd hn2 (by decide)

/-! ### C2 support: the retention trim as a state machine over record calls -/

/-- The arguments of one record (from_exchange) call. -/
structure Call where
  req : Request
  resp : Response
  ro : Owner
  payload : Option PyValue

/-- The owner identity the trim is scoped by: the stored content type pair
and primary key. -/
def ownerKey (ro : Owner) : (String × String) × Nat := (ownerCT ro, ownerPk ro)

/-- The owner reference stored on an exchange row. -/
def exchKey (e : Exchange) : (String × String) × Nat := (e.ct, e.objectId)

/-- The rows of one owner, in stored order. -/
def filterKey (k : (String × String) × Nat) (rows : List Exchange) : List Exchange :=
  rows.filter (fun e => exchKey e = k)

/-- Run a sequence of record calls against a store. -/
def runCalls (st : Store) : List Call → Store
  | [] => st
  | c :: t => runCalls (fromExchange st c.req c.resp c.ro c.payload) t

/-- All rows the calls ever create (before any trim), stamping dates from
n upward: call i inserts the row with date n + i. -/
def createdRows (n : Nat) : List Call → List Exchange
  | [] => []
  | c :: t => mkExchange n c.req c.resp c.ro c.payload :: createdRows (n + 1) t

/-- The limit most recently created elements of a chronological list. -/
def keepLast (limit : Nat) (l : List Exchange) : List Exchange :=
  l.drop (l.length - limit)

theorem runCalls_append (l : List Call) (c : Call) : ∀ st : Store,
    runCalls st (l ++ [c]) = fromExchange (runCalls st l) c.req c.resp c.ro c.payload := by
  induction l with
  | nil => intro st; rfl
  | cons hd t ih => intro st; exact ih _

theorem createdRows_append (l : List Call) (c : Call) : ∀ n,
    createdRows n (l ++ [c])
      = createdRows n l ++ [mkExchange (n + l.length) c.req c.resp c.ro c.payload] := by
  induction l with
  | nil => intro n; simp [createdRows]
  | cons hd t ih =>
    intro n
    show _ :: createdRows (n + 1) (t ++ [c]) = _
    rw [ih (n + 1)]
    simp only [createdRows, List.cons_append, List.length_cons]
    rw [show n + 1 + t.length = n + (t.length + 1) from by omega]

theorem exchKey_mkExchange (d : Nat) (req : Request) (resp : Response) (ro : Owner)
    (p : Option PyValue) : exchKey (mkExchange d req resp ro p) = ownerKey ro := rfl

theorem date_mkExchange (d : Nat) (req : Request) (resp : Response) (ro : Owner)
    (p : Option PyValue) : (mkExchange d req resp ro p).date = d := rfl

theorem inQuerySet_eq_key (ro : Owner) (e : Exchange) :
    inQuerySet ro e = decide (exchKey e = ownerKey ro) := by
  cases ro with
  | integration pk =>
    by_cases h : exchKey e = ownerKey (Owner.integration pk)
    · simp only [exchKey, ownerKey, ownerCT, ownerPk, Prod.mk.injEq] at h
      simp [inQuerySet, exchKey, ownerKey, ownerCT, ownerPk, h.1, h.2]
    · simp only [decide_eq_false h]
      simp only [exchKey, ownerKey, ownerCT, ownerPk, Prod.mk.injEq, not_and] at h
      by_cases h1 : e.ct = integrationCT
      · simp [inQuerySet, h1, h h1]
      · simp [inQuerySet, h1]
  | entity a m pk =>
    by_cases h : exchKey e = ownerKey (Owner.entity a m pk)
    · simp only [exchKey, ownerKey, ownerCT, ownerPk, Prod.mk.injEq] at h
      simp [inQuerySet, exchKey, ownerKey, ownerCT, ownerPk, h.1, h.2]
    · simp only [decide_eq_false h]
      simp only [exchKey, ownerKey, ownerCT, ownerPk, Prod.mk.injEq, not_and] at h
      by_cases h1 : e.ct = (a, m)
      · simp [inQuerySet, h1, h h1]
      · simp [inQuerySet, h1]

theorem insertByDateDesc_last (x : Exchange) : ∀ l : List Exchange,
    (∀ y ∈ l, x.date < y.date) → insertByDateDesc x l = l ++ [x] := by
  intro l
  induction l with
  | nil => intro _; rfl
  | cons hd t ih =>
    intro h
    have hx : ¬(x.date ≥ hd.date) := by
      have := h hd (by simp)
      omega
    simp only [insertByDateDesc, hx, if_false, List.cons_append]
    rw [ih (fun y hy => h y (by simp [hy]))]

/-- On a chronologically ascending list the queryset ordering is exactly
reversal. -/
theorem orderByDateDesc_ascending : ∀ l : List Exchange,
    l.Pairwise (fun a b => a.date < b.date) → orderByDateDesc l = l.reverse := by
  intro l
  induction l with
  | nil => intro _; rfl
  | cons hd t ih =>
    intro h
    rw [List.pairwise_cons] at h
    show insertByDateDesc hd (orderByDateDesc t) = _
    rw [ih h.2, insertByDateDesc_last hd _ (fun y hy => h.1 y (List.mem_reverse.mp hy))]
    simp

/-- The store invariant every reachable state satisfies: dates below the
clock, rows chronological, and at most 10 rows per owner. -/
def storeInv (st : Store) : Prop :=
  (∀ e ∈ st.rows, e.date < st.next) ∧
  st.rows.Pairwise (fun a b => a.date < b.date) ∧
  ∀ k, (filterKey k st.rows).length ≤ 10

theorem filterKey_append (k : (String × String) × Nat) (l1 l2 : List Exchange) :
    filterKey k (l1 ++ l2) = filterKey k l1 ++ filterKey k l2 :=
  List.filter_append _ _

theorem filterKey_filter (k : (String × String) × Nat) (p : Exchange → Bool)
    (l : List Exchange) : filterKey k (l.filter p) = (filterKey k l).filter p := by
  unfold filterKey
  rw [List.filter_filter, List.filter_filter]
  apply List.filter_congr
  intro x _
  exact Bool.and_comm _ _

theorem filterKey_sub (k : (String × String) × Nat) (l : List Exchange) :
    ∀ x ∈ filterKey k l, x ∈ l ∧ exchKey x = k := by
  intro x hx
  refine ⟨List.mem_of_mem_filter hx, ?_⟩
  have := List.of_mem_filter hx
  exact of_decide_eq_true this

theorem filterKey_single_hit (k : (String × String) × Nat) (e : Exchange)
    (h : exchKey e = k) : filterKey k [e] = [e] := by
  unfold filterKey
  simp [h]

theorem filterKey_single_miss (k : (String × String) × Nat) (e : Exchange)
    (h : exchKey e ≠ k) : filterKey k [e] = [] := by
  unfold filterKey
  simp [h]

/-- One record call: the clock advances, the owner's rows gain the new
exchange and lose the oldest one exactly when they were full, other
owners' rows are untouched, and the invariant is preserved. -/
theorem fromExchange_step (st : Store) (c : Call) (hinv : storeInv st) :
    storeInv (fromExchange st c.req c.resp c.ro c.payload) ∧
    (fromExchange st c.req c.resp c.ro c.payload).next = st.next + 1 ∧
    filterKey (ownerKey c.ro) (fromExchange st c.req c.resp c.ro c.payload).rows
      = (filterKey (ownerKey c.ro) st.rows
          ++ [mkExchange st.next c.req c.resp c.ro c.payload]).drop
          ((filterKey (ownerKey c.ro) st.rows).length + 1 - 10) ∧
    ∀ k, k ≠ ownerKey c.ro →
      filterKey k (fromExchange st c.req c.resp c.ro c.payload).rows
        = filterKey k st.rows := by
  obtain ⟨hdate, hpw, hlen⟩ := hinv
  set e := mkExchange st.next c.req c.resp c.ro c.payload with he
  set k0 := ownerKey c.ro with hk0
  set F := filterKey k0 st.rows with hF
  have hkey : exchKey e = k0 := rfl
  have hedate : e.date = st.next := rfl
  have hrows1pw : (st.rows ++ [e]).Pairwise (fun a b => a.date < b.date) := by
    rw [List.pairwise_append]
    refine ⟨hpw, List.pairwise_singleton _ _, ?_⟩
    intro a ha b hb
    rw [List.mem_singleton] at hb
    rw [hb, hedate]
    exact hdate a ha
  have hq1 : filterKey k0 (st.rows ++ [e]) = F ++ [e] := by
    rw [filterKey_append, filterKey_single_hit k0 e hkey]
  have hqs : (st.rows ++ [e]).filter (inQuerySet c.ro) = F ++ [e] := by
    rw [List.filter_congr (fun x _ => inQuerySet_eq_key c.ro x)]
    exact hq1
  have hFpw : (F ++ [e]).Pairwise (fun a b => a.date < b.date) := by
    rw [List.pairwise_append]
    refine ⟨hpw.filter _, List.pairwise_singleton _ _, ?_⟩
    intro a ha b hb
    rw [List.mem_singleton] at hb
    rw [hb, hedate]
    exact hdate a (filterKey_sub k0 st.rows a ha).1
  have hord : orderByDateDesc ((st.rows ++ [e]).filter (inQuerySet c.ro))
      = (F ++ [e]).reverse := by
    rw [hqs]
    exact orderByDateDesc_ascending _ hFpw
  have hnext2 : (fromExchange st c.req c.resp c.ro c.payload).next = st.next + 1 := rfl
  have hflen : F.length ≤ 10 := hlen k0
  by_cases hfull : F.length = 10
  · -- the owner's history is full: the oldest row is deleted
    obtain ⟨f0, F2, hF0⟩ : ∃ f0 F2, F = f0 :: F2 := by
      cases hcase : F with
      | nil => rw [hcase] at hfull; simp at hfull
      | cons a b => exact ⟨a, b, rfl⟩
    have hF2len : F2.length = 9 := by
      rw [hF0] at hfull
      simp only [List.length_cons] at hfull
      omega
    have hexcess : ((F ++ [e]).reverse).drop 10 = [f0] := by
      rw [hF0]
      show ((f0 :: (F2 ++ [e])).reverse).drop 10 = [f0]
      rw [List.reverse_cons]
      have hlen2 : ((F2 ++ [e]).reverse).length = 10 := by
        simp [hF2len]
      rw [show (10 : Nat) = ((F2 ++ [e]).reverse).length from hlen2.symm]
      exact List.drop_left _ _
    have hrows2 : (fromExchange st c.req c.resp c.ro c.payload).rows
        = (st.rows ++ [e]).filter (fun x => !(List.contains [f0] x)) := by
      show (st.rows ++ [e]).filter (fun x =>
          !((orderByDateDesc ((st.rows ++ [e]).filter (inQuerySet c.ro))).drop 10).contains x)
        = _
      rw [hord, hexcess]
    have hne_f0 : ∀ x ∈ F2 ++ [e], (x == f0) = false := by
      intro x hx
      have hlt : f0.date < x.date := by
        rw [hF0] at hFpw
        have hc := List.pairwise_cons.mp hFpw
        exact hc.1 x hx
      cases hh : (x == f0)
      · rfl
      · exfalso
        rw [eq_of_beq hh] at hlt
        omega
    have hang : ∀ (l : List Exchange), (∀ x ∈ l, (x == f0) = false) →
        l.filter (fun x => !(List.contains [f0] x)) = l := by
      intro l hl
      rw [List.filter_eq_self]
      intro a ha
      simp [List.contains, List.elem, hl a ha]
    have hmain : filterKey k0 ((st.rows ++ [e]).filter (fun x => !(List.contains [f0] x)))
        = F2 ++ [e] := by
      rw [filterKey_filter, hq1, hF0]
      show (f0 :: (F2 ++ [e])).filter (fun x => !(List.contains [f0] x)) = F2 ++ [e]
      rw [List.filter_cons]
      rw [if_neg (by simp [List.contains, List.elem])]
      exact hang _ hne_f0
    refine ⟨⟨?_, ?_, ?_⟩, hnext2, ?_, ?_⟩
    · intro x hx
      rw [hrows2] at hx
      rw [hnext2]
      have hx2 := List.mem_of_mem_filter hx
      rcases List.mem_append.mp hx2 with h1 | h1
      · have := hdate x h1
        omega
      · rw [List.mem_singleton] at h1
        rw [h1, hedate]
        omega
    · rw [hrows2]
      exact hrows1pw.filter _
    · intro k
      rw [hrows2]
      by_cases hk : k = k0
      · rw [hk, hmain]
        simp [hF2len]
      · rw [filterKey_filter]
        calc ((filterKey k (st.rows ++ [e])).filter _).length
            ≤ (filterKey k (st.rows ++ [e])).length := List.length_filter_le _ _
          _ ≤ (filterKey k st.rows).length := by
              rw [filterKey_append,
                filterKey_single_miss k e (fun hh => hk (hkey.symm.trans hh).symm)]
              simp
          _ ≤ 10 := hlen k
    · rw [hrows2, hmain, hfull, hF0]
      show F2 ++ [e] = (f0 :: (F2 ++ [e])).drop 1
      rfl
    · intro k hk
      rw [hrows2, filterKey_filter, filterKey_append,
        filterKey_single_miss k e (fun hh => hk (hkey.symm.trans hh).symm)]
      rw [List.append_nil]
      apply hang
      intro x hx
      have hxk : exchKey x = k := (filterKey_sub k st.rows x hx).2
      have hf0k : exchKey f0 = k0 := by
        have hf0F : f0 ∈ F := by
          rw [hF0]
          simp
        exact (filterKey_sub k0 st.rows f0 hf0F).2
      cases hh : (x == f0)
      · rfl
      · exfalso
        rw [eq_of_beq hh, hf0k] at hxk
        exact hk hxk.symm
  · -- the owner's history is short: nothing is deleted
    have hexcess : ((F ++ [e]).reverse).drop 10 = [] := by
      apply List.drop_eq_nil_of_le
      simp
      omega
    have hrows2 : (fromExchange st c.req c.resp c.ro c.payload).rows = st.rows ++ [e] := by
      show (st.rows ++ [e]).filter (fun x =>
          !((orderByDateDesc ((st.rows ++ [e]).filter (inQuerySet c.ro))).drop 10).contains x)
        = _
      rw [hord, hexcess]
      rw [List.filter_eq_self]
      intro a _
      rfl
    refine ⟨⟨?_, ?_, ?_⟩, hnext2, ?_, ?_⟩
    · intro x hx
      rw [hrows2] at hx
      rw [hnext2]
      rcases List.mem_append.mp hx with h1 | h1
      · have := hdate x h1
        omega
      · rw [List.mem_singleton] at h1
        rw [h1, hedate]
        omega
    · rw [hrows2]
      exact hrows1pw
    · intro k
      rw [hrows2, filterKey_append]
      by_cases hk : k = k0
      · rw [hk, filterKey_single_hit k0 e hkey]
        have hflen3 : (filterKey k0 st.rows).length ≤ 10 := hflen
        have hfull3 : ¬(filterKey k0 st.rows).length = 10 := hfull
        simp only [List.length_append, List.length_cons, List.length_nil]
        omega
      · rw [filterKey_single_miss k e (fun hh => hk (hkey.symm.trans hh).symm)]
        simp
        exact hlen k
    · rw [hrows2, hq1]
      rw [show F.length + 1 - 10 = 0 from by omega, List.drop_zero]
    · intro k hk
      rw [hrows2, filterKey_append,
        filterKey_single_miss k e (fun hh => hk (hkey.symm.trans hh).symm)]
      rw [List.append_nil]


theorem keepLast_snoc (A : List Exchange) (e : Exchange) :
    (keepLast 10 A ++ [e]).drop ((keepLast 10 A).length + 1 - 10) = keepLast 10 (A ++ [e]) := by
  unfold keepLast
  rw [List.length_drop]
  by_cases h : A.length ≤ 9
  · rw [show A.length - (A.length - 10) + 1 - 10 = 0 from by omega]
    rw [show A.length - 10 = 0 from by omega]
    rw [show (A ++ [e]).length - 10 = 0 from by
      rw [List.length_append, List.length_singleton]
      omega]
    rw [List.drop_zero, List.drop_zero, List.drop_zero]
  · have h3 : A.length + 1 - 10 ≤ A.length := by omega
    rw [show A.length - (A.length - 10) + 1 - 10 = 1 from by omega]
    rw [show (A ++ [e]).length - 10 = A.length + 1 - 10 from by
      rw [List.length_append, List.length_singleton]]
    rw [List.drop_append_of_le_length h3]
    rw [List.drop_append_of_le_length (by rw [List.length_drop]; omega)]
    rw [List.drop_drop]
    rw [show A.length - 10 + 1 = A.length + 1 - 10 from by omega]

/-- The reachable store after any sequence of record calls: the invariant
holds, the clock counts the calls, and each owner's stored rows are
exactly the 10 most recently created rows for that owner. -/
theorem runCalls_char (calls : List Call) :
    storeInv (runCalls emptyStore calls) ∧
    (runCalls emptyStore calls).next = calls.length ∧
    ∀ k, filterKey k (runCalls emptyStore calls).rows
      = keepLast 10 (filterKey k (createdRows 0 calls)) := by
  induction calls using List.reverseRecOn with
  | nil =>
    refine ⟨⟨?_, ?_, ?_⟩, rfl, ?_⟩
    · intro x hx
      cases hx
    · exact List.Pairwise.nil
    · intro k
      show ([] : List Exchange).length ≤ 10
      simp
    · intro k
      rfl
  | append_singleton l c ih =>
    obtain ⟨hinv, hnext, hchar⟩ := ih
    obtain ⟨hinv2, hnext2, hkown, hkoth⟩ := fromExchange_step (runCalls emptyStore l) c hinv
    rw [runCalls_append]
    refine ⟨hinv2, ?_, ?_⟩
    · rw [hnext2, hnext]
      simp
    · intro k
      rw [createdRows_append]
      by_cases hk : k = ownerKey c.ro
      · subst hk
        rw [hkown, hchar (ownerKey c.ro), hnext]
        rw [filterKey_append, filterKey_single_hit _ _ (exchKey_mkExchange _ _ _ _ _),
          Nat.zero_add]
        exact keepLast_snoc _ _
      · rw [hkoth k hk, hchar k, filterKey_append,
          filterKey_single_miss k _ (fun hh => hk (hh.symm.trans (exchKey_mkExchange _ _ _ _ _)))]
        rw [List.append_nil]

/-! ### C2: the retention trim keeps the 10 most recent rows per owner -/

/-- C2: for every sequence of record calls and every owner (scoped by
Integration reference or by content-type plus object id, both of which the
stored owner key captures), once more than 10 rows were ever created for
that owner, exactly 10 remain after the last call, and they are the 10
most recently created ones. -/
theorem retention_limit (calls : List Call) (k : (String × String) × Nat)
    (hN : 10 < (filterKey k (createdRows 0 calls)).length) :
    filterKey k (runCalls emptyStore calls).rows
      = keepLast 10 (filterKey k (createdRows 0 calls)) ∧
    (filterKey k (runCalls emptyStore calls).rows).length = 10 := by
  have h := runCalls_char calls
  refine ⟨h.2.2 k, ?_⟩
  rw [h.2.2 k]
  unfold keepLast
  rw [List.length_drop]
  omega

/-- A record call with trivial request and response, used in witnesses. -/
def callOf (ro : Owner) : Call :=
  { req := reqEmpty
    resp := respEmpty
    ro := ro
    payload := Option.none }

/-- Witness for C2: after 11 record calls for one integration, its owner
key holds exactly 10 rows. -/
theorem retention_limit_witness :
    10 < (filterKey (ownerKey (Owner.integration 7))
      (createdRows 0 (List.replicate 11 (callOf (Owner.integration 7))))).length ∧
    (filterKey (ownerKey (Owner.integration 7))
      (runCalls emptyStore (List.replicate 11 (callOf (Owner.integration 7)))).rows).length
      = 10 :=
  ⟨by decide, (retention_limit (List.replicate 11 (callOf (Owner.integration 7)))
    (ownerKey (Owner.integration 7)) (by decide)).2⟩

/-! ### json.loads, as formatted_json and the round-trip property use it

The scanner of the Python 2 json module, restricted to the value space of
PyValue: numbers are integer literals (floating point is out of scope, so
fraction and exponent parts and the NaN/Infinity literals are not
modelled), strings reject raw control characters (strict mode) and must
pair their surrogate escapes (a lone surrogate escape denotes no scalar
value), objects collapse duplicate keys with the later value winning, and
whitespace is skipped around every token. -/

def jsonWs (c : Char) : Bool := c = ' ' || c = '\t' || c = '\n' || c = '\r'

def skipWs : List Char → List Char
  | [] => []
  | c :: t => if jsonWs c then skipWs t else c :: t

def isDigitCh (c : Char) : Bool := 48 ≤ c.toNat && c.toNat ≤ 57

def takeDigits : List Char → List Char × List Char
  | [] => ([], [])
  | c :: t =>
    if isDigitCh c then
      match takeDigits t with
      | (ds, r) => (c :: ds, r)
    else ([], c :: t)

def digitsVal (ds : List Char) : Nat :=
  ds.foldl (fun a c => a * 10 + (c.toNat - 48)) 0

/-- An unsigned integer literal: one or more digits, where a leading zero
stands alone (the scanner regex accepts 0 or a nonzero-led digit run). -/
def parseNatTok (cs : List Char) : Option (Nat × List Char) :=
  match takeDigits cs with
  | ([], _) => Option.none
  | (d :: ds, r) =>
    if d = '0' then (if ds = [] then some (0, r) else some (0, ds ++ r))
    else some (digitsVal (d :: ds), r)

def parseIntTok (cs : List Char) : Option (Int × List Char) :=
  match cs with
  | '-' :: t =>
    match parseNatTok t with
    | some (n, r) => some (-(n : Int), r)
    | Option.none => Option.none
  | _ =>
    match parseNatTok cs with
    | some (n, r) => some ((n : Int), r)
    | Option.none => Option.none

def hexDigitVal (c : Char) : Option Nat :=
  if 48 ≤ c.toNat && c.toNat ≤ 57 then some (c.toNat - 48)
  else if 97 ≤ c.toNat && c.toNat ≤ 102 then some (c.toNat - 87)
  else if 65 ≤ c.toNat && c.toNat ≤ 70 then some (c.toNat - 55)
  else Option.none

def escMap : Char → Option Char
  | '"' => some '"'
  | '\\' => some '\\'
  | '/' => some '/'
  | 'b' => some (Char.ofNat 8)
  | 'f' => some (Char.ofNat 12)
  | 'n' => some (Char.ofNat 10)
  | 'r' => some (Char.ofNat 13)
  | 't' => some (Char.ofNat 9)
  | _ => Option.none

def hex4 (a b c d : Char) : Option Nat :=
  match hexDigitVal a, hexDigitVal b, hexDigitVal c, hexDigitVal d with
  | some va, some vb, some vc, some vd => some (((va * 16 + vb) * 16 + vc) * 16 + vd)
  | _, _, _, _ => Option.none

/-- The string scanner after the opening quote: literal characters up to
the closing quote, named escapes, and \uXXXX escapes with surrogate pairs
combined into one scalar value.  The fuel is structural bookkeeping only:
every step consumes input, so any fuel above the input length suffices,
and callers pass the input length plus one. -/
def parseStrBody : Nat → List Char → List Char → Option (String × List Char)
  | 0, _, _ => Option.none
  | fuel + 1, acc, cs =>
    match cs with
    | [] => Option.none
    | c :: t =>
      if c = '"' then some (String.mk acc.reverse, t)
      else if c = '\\' then
        match t with
        | [] => Option.none
        | e :: t2 =>
          if e = 'u' then
            match t2 with
            | a :: b :: c2 :: d :: r =>
              match hex4 a b c2 d with
              | some n =>
                if 55296 ≤ n && n ≤ 56319 then
                  match r with
                  | s1 :: s2 :: a2 :: b2 :: c3 :: d2 :: r2 =>
                    if s1 = '\\' && s2 = 'u' then
                      match hex4 a2 b2 c3 d2 with
                      | some m =>
                        if 56320 ≤ m && m ≤ 57343 then
                          parseStrBody fuel
                            (Char.ofNat (65536 + (n - 55296) * 1024 + (m - 56320)) :: acc) r2
                        else Option.none
                      | Option.none => Option.none
                    else Option.none
                  | _ => Option.none
                else if 56320 ≤ n && n ≤ 57343 then Option.none
                else parseStrBody fuel (Char.ofNat n :: acc) r
              | Option.none => Option.none
            | _ => Option.none
          else
            match escMap e with
            | some d2 => parseStrBody fuel (d2 :: acc) t2
            | Option.none => Option.none
      else if c.toNat < 32 then Option.none
      else parseStrBody fuel (c :: acc) t

/-- Python dict value insertion (overwrite in place or append). -/
def pvInsert (k : String) (v : PyValue) :
    List (String × PyValue) → List (String × PyValue)
  | [] => [(k, v)]
  | (k0, v0) :: t => if k0 = k then (k, v) :: t else (k0, v0) :: pvInsert k v t

/-- dict(pairs): later duplicates overwrite earlier ones. -/
def dictFromPairs (pairs : List (String × PyValue)) : List (String × PyValue) :=
  pairs.foldl (fun acc kv => pvInsert kv.1 kv.2 acc) []

mutual
/-- One JSON value (fuel-bounded recursion; the fuel exceeds any input's
nesting depth when set to its length). -/
def parseVal : Nat → List Char → Option (PyValue × List Char)
  | 0, _ => Option.none
  | fuel + 1, cs =>
    match skipWs cs with
    | 'n' :: 'u' :: 'l' :: 'l' :: r => some (PyValue.none, r)
    | 't' :: 'r' :: 'u' :: 'e' :: r => some (PyValue.bool true, r)
    | 'f' :: 'a' :: 'l' :: 's' :: 'e' :: r => some (PyValue.bool false, r)
    | '"' :: r =>
      match parseStrBody (r.length + 1) [] r with
      | some (s, r2) => some (PyValue.str s, r2)
      | Option.none => Option.none
    | '[' :: r =>
      match skipWs r with
      | ']' :: r2 => some (PyValue.list [], r2)
      | r2 =>
        match parseElems fuel r2 with
        | some (xs, r3) => some (PyValue.list xs, r3)
        | Option.none => Option.none
    | '\x7b' :: r =>
      match skipWs r with
      | '\x7d' :: r2 => some (PyValue.dict [], r2)
      | r2 =>
        match parseMembers fuel r2 with
        | some (kvs, r3) => some (PyValue.dict (dictFromPairs kvs), r3)
        | Option.none => Option.none
    | c :: rest =>
      if c = '-' || isDigitCh c then
        match parseIntTok (c :: rest) with
        | some (n, r2) => some (PyValue.int n, r2)
        | Option.none => Option.none
      else Option.none
    | [] => Option.none
/-- One or more comma-separated array elements, then the closing bracket. -/
def parseElems : Nat → List Char → Option (List PyValue × List Char)
  | 0, _ => Option.none
  | fuel + 1, cs =>
    match parseVal fuel cs with
    | some (v, r) =>
      match skipWs r with
      | ',' :: r2 =>
        match parseElems fuel r2 with
        | some (xs, r3) => some (v :: xs, r3)
        | Option.none => Option.none
      | ']' :: r2 => some ([v], r2)
      | _ => Option.none
    | Option.none => Option.none
/-- One or more comma-separated object members, then the closing brace. -/
def parseMembers : Nat → List Char → Option (List (String × PyValue) × List Char)
  | 0, _ => Option.none
  | fuel + 1, cs =>
    match skipWs cs with
    | '"' :: r =>
      match parseStrBody (r.length + 1) [] r with
      | some (k, r1) =>
        match skipWs r1 with
        | ':' :: r2 =>
          match parseVal fuel r2 with
          | some (v, r3) =>
            match skipWs r3 with
            | ',' :: r4 =>
              match parseMembers fuel r4 with
              | some (kvs, r5) => some ((k, v) :: kvs, r5)
              | Option.none => Option.none
            | '\x7d' :: r4 => some ([(k, v)], r4)
            | _ => Option.none
          | Option.none => Option.none
        | _ => Option.none
      | Option.none => Option.none
    | _ => Option.none
end

/-- json.loads: parse one document and require only whitespace after it. -/
def jsonLoads (s : String) : Option PyValue :=
  match parseVal (s.data.length + 1) s.data with
  | some (v, r) => if skipWs r = [] then some v else Option.none
  | Option.none => Option.none

/-! ### json.dumps with sort_keys=True and indent=2, for formatted_json -/

def indentChars (n : Nat) : List Char := List.replicate n ' '

mutual
/-- Python 2 json.dumps with indent=2 on an already key-sorted value: the
item separator is ", " followed by a newline and the next indentation (the
Python 2 output keeps the trailing space before each newline). -/
def dumpIndent : Nat → PyValue → List Char
  | _, .none => nullChars
  | _, .bool true => trueChars
  | _, .bool false => falseChars
  | _, .int n => intChars n
  | _, .str s => strChars s
  | _, .list [] => ['[', ']']
  | lvl, .list (x :: xs) =>
    '[' :: '\n' :: (indentChars (lvl + 2) ++ dumpIndentElems (lvl + 2) (x :: xs)
      ++ '\n' :: (indentChars lvl ++ [']']))
  | _, .dict [] => ['\x7b', '\x7d']
  | lvl, .dict (kv :: kvs) =>
    '\x7b' :: '\n' :: (indentChars (lvl + 2) ++ dumpIndentMembers (lvl + 2) (kv :: kvs)
      ++ '\n' :: (indentChars lvl ++ ['\x7d']))
  | _, .obj _ => []
def dumpIndentElems : Nat → List PyValue → List Char
  | _, [] => []
  | lvl, [x] => dumpIndent lvl x
  | lvl, x :: y :: t =>
    dumpIndent lvl x ++ (',' :: ' ' :: '\n' :: (indentChars lvl ++ dumpIndentElems lvl (y :: t)))
def dumpIndentMembers : Nat → List (String × PyValue) → List Char
  | _, [] => []
  | lvl, [(k, v)] => strChars k ++ (':' :: ' ' :: dumpIndent lvl v)
  | lvl, (k, v) :: m :: t =>
    strChars k ++ (':' :: ' ' :: (dumpIndent lvl v
      ++ (',' :: ' ' :: '\n' :: (indentChars lvl ++ dumpIndentMembers lvl (m :: t)))))
end

/-- formatted_json (lines 140-149), short of the external Pygments
highlighting: try json.loads on the stored body; on success re-serialize
with sorted keys and 2-space indentation, otherwise return the stored
string unchanged. -/
def formattedJson (value : String) : String :=
  match jsonLoads value with
  | some v => String.mk (dumpIndent 0 (canon v))
  | Option.none => value

/-! ### C6 support, part 1: decimal literals invert natChars/intChars -/

theorem digitChar_toNat (d : Nat) (h : d < 10) : (digitChar d).toNat = 48 + d :=
  char_toNat_ofNat _ (Or.inl (by omega))

theorem digitChar_digit (d : Nat) (h : d < 10) : isDigitCh (digitChar d) = true := by
  unfold isDigitCh
  rw [digitChar_toNat d h]
  simp
  omega

theorem digitChar_ne_zero (d : Nat) (h1 : 1 ≤ d) (h2 : d < 10) : digitChar d ≠ '0' := by
  intro he
  have := congrArg Char.toNat he
  rw [digitChar_toNat d h2] at this
  have h0 : Char.toNat '0' = 48 := by decide
  omega

theorem natCharsGo_spec : ∀ n fuel acc, n ≤ fuel →
    natCharsGo (fuel + 1) n acc = natChars n ++ acc := by
  intro n
  induction n using Nat.strongRecOn with
  | _ n ih =>
    intro fuel acc hle
    by_cases h : n < 10
    · show (if n < 10 then digitChar n :: acc else _) = _
      rw [if_pos h]
      show _ = (if n < 10 then digitChar n :: ([] : List Char) else _) ++ acc
      rw [if_pos h]
      rfl
    · have hlt : n / 10 < n := Nat.div_lt_self (by omega) (by omega)
      obtain ⟨f2, hf2⟩ : ∃ f2, fuel = f2 + 1 := ⟨fuel - 1, by omega⟩
      obtain ⟨g2, hg2⟩ : ∃ g2, n = g2 + 1 := ⟨n - 1, by omega⟩
      have hdiv : n / 10 ≤ f2 := by omega
      have hdiv2 : n / 10 ≤ g2 := by omega
      have hside : natChars n = natChars (n / 10) ++ [digitChar (n % 10)] := by
        show natCharsGo (n + 1) n [] = _
        rw [show natCharsGo (n + 1) n []
            = (if n < 10 then digitChar n :: ([] : List Char)
               else natCharsGo n (n / 10) [digitChar (n % 10)]) from rfl]
        rw [if_neg h]
        calc natCharsGo n (n / 10) [digitChar (n % 10)]
            = natCharsGo (g2 + 1) (n / 10) [digitChar (n % 10)] := by rw [hg2]
          _ = natChars (n / 10) ++ [digitChar (n % 10)] := ih (n / 10) hlt g2 _ hdiv2
      show (if n < 10 then digitChar n :: acc else natCharsGo fuel (n / 10) _) = _
      rw [if_neg h]
      calc natCharsGo fuel (n / 10) (digitChar (n % 10) :: acc)
          = natCharsGo (f2 + 1) (n / 10) (digitChar (n % 10) :: acc) := by rw [hf2]
        _ = natChars (n / 10) ++ (digitChar (n % 10) :: acc) := ih (n / 10) hlt f2 _ hdiv
        _ = (natChars (n / 10) ++ [digitChar (n % 10)]) ++ acc := by simp
        _ = natChars n ++ acc := by rw [← hside]

theorem natChars_unfold (n : Nat) :
    natChars n = if n < 10 then [digitChar n] else natChars (n / 10) ++ [digitChar (n % 10)] := by
  by_cases h : n < 10
  · rw [if_pos h]
    show (if n < 10 then digitChar n :: ([] : List Char) else _) = _
    rw [if_pos h]
  · rw [if_neg h]
    obtain ⟨g2, hg2⟩ : ∃ g2, n = g2 + 1 := ⟨n - 1, by omega⟩
    have hdiv2 : n / 10 ≤ g2 := by
      have := Nat.div_lt_self (show 0 < n from by omega) (show 1 < 10 from by omega)
      omega
    show natCharsGo (n + 1) n [] = _
    rw [show natCharsGo (n + 1) n []
        = (if n < 10 then digitChar n :: ([] : List Char)
           else natCharsGo n (n / 10) [digitChar (n % 10)]) from rfl]
    rw [if_neg h]
    calc natCharsGo n (n / 10) [digitChar (n % 10)]
        = natCharsGo (g2 + 1) (n / 10) [digitChar (n % 10)] := by rw [hg2]
      _ = natChars (n / 10) ++ [digitChar (n % 10)] := natCharsGo_spec (n / 10) g2 _ hdiv2

theorem natChars_shape (n : Nat) :
    ∃ c t, natChars n = c :: t ∧ isDigitCh c = true ∧ (1 ≤ n → c ≠ '0') := by
  induction n using Nat.strongRecOn with
  | _ n ih =>
    rw [natChars_unfold]
    by_cases h : n < 10
    · rw [if_pos h]
      exact ⟨digitChar n, [], rfl, digitChar_digit n h, fun h1 => digitChar_ne_zero n h1 h⟩
    · rw [if_neg h]
      obtain ⟨c, t, hct, hd, hz⟩ := ih (n / 10) (Nat.div_lt_self (by omega) (by omega))
      exact ⟨c, t ++ [digitChar (n % 10)], by rw [hct]; rfl, hd,
        fun _ => hz (by omega)⟩

theorem natChars_digits (n : Nat) : ∀ c ∈ natChars n, isDigitCh c = true := by
  induction n using Nat.strongRecOn with
  | _ n ih =>
    rw [natChars_unfold]
    by_cases h : n < 10
    · rw [if_pos h]
      intro c hc
      rw [List.mem_singleton] at hc
      rw [hc]
      exact digitChar_digit n h
    · rw [if_neg h]
      intro c hc
      rcases List.mem_append.mp hc with h1 | h1
      · exact ih (n / 10) (Nat.div_lt_self (by omega) (by omega)) c h1
      · rw [List.mem_singleton] at h1
        rw [h1]
        exact digitChar_digit _ (Nat.mod_lt _ (by omega))

theorem digitsVal_natChars (n : Nat) : digitsVal (natChars n) = n := by
  induction n using Nat.strongRecOn with
  | _ n ih =>
    rw [natChars_unfold]
    by_cases h : n < 10
    · rw [if_pos h]
      unfold digitsVal
      rw [List.foldl_cons, List.foldl_nil, digitChar_toNat n h]
      omega
    · rw [if_neg h]
      unfold digitsVal
      rw [List.foldl_append, List.foldl_cons, List.foldl_nil]
      have hrec := ih (n / 10) (Nat.div_lt_self (by omega) (by omega))
      unfold digitsVal at hrec
      rw [hrec, digitChar_toNat _ (Nat.mod_lt _ (by omega))]
      omega

theorem takeDigits_stop (cs : List Char)
    (h : match cs with | [] => True | c :: _ => isDigitCh c = false) :
    takeDigits cs = ([], cs) := by
  cases cs with
  | nil => rfl
  | cons c t =>
    simp only at h
    simp [takeDigits, h]

theorem takeDigits_run (digs rs : List Char)
    (hd : ∀ c ∈ digs, isDigitCh c = true)
    (hrs : takeDigits rs = ([], rs)) :
    takeDigits (digs ++ rs) = (digs, rs) := by
  induction digs with
  | nil => simpa using hrs
  | cons d tl ih =>
    have hc : isDigitCh d = true := hd d (by simp)
    have htl := ih (fun x hx => hd x (by simp [hx]))
    simp [takeDigits, hc, htl]

/-- What may follow a rendered integer so that digit consumption stops. -/
def followOk : List Char → Bool
  | [] => true
  | c :: _ => !isDigitCh c

theorem takeDigits_followOk (rest : List Char) (h : followOk rest = true) :
    takeDigits rest = ([], rest) := by
  apply takeDigits_stop
  cases rest with
  | nil => trivial
  | cons c t =>
    unfold followOk at h
    simp only [Bool.not_eq_true'] at h
    exact h

theorem parseNatTok_natChars (n : Nat) (rest : List Char) (h : followOk rest = true) :
    parseNatTok (natChars n ++ rest) = some (n, rest) := by
  have htd := takeDigits_run (natChars n) rest (natChars_digits n) (takeDigits_followOk rest h)
  obtain ⟨c, t, hct, hdig, hz⟩ := natChars_shape n
  unfold parseNatTok
  rw [htd, hct]
  by_cases h0 : n = 0
  · have hn0 : natChars 0 = ['0'] := by rfl
    rw [h0, hn0] at hct
    cases hct
    show (if '0' = '0' then (if ([] : List Char) = [] then some ((0 : Nat), rest) else _)
      else _) = _
    rw [if_pos rfl, if_pos rfl, h0]
  · have hcz : c ≠ '0' := hz (by omega)
    have hn : digitsVal (c :: t) = n := by
      rw [← hct]
      exact digitsVal_natChars n
    show (if c = '0' then _ else some (digitsVal (c :: t), rest)) = _
    rw [if_neg hcz, hn]

theorem parseIntTok_intChars (i : Int) (rest : List Char) (h : followOk rest = true) :
    parseIntTok (intChars i ++ rest) = some (i, rest) := by
  unfold intChars
  by_cases hneg : i < 0
  · rw [if_pos hneg]
    show (match parseNatTok (natChars i.natAbs ++ rest) with
      | some (n, r) => some (-(n : Int), r)
      | Option.none => Option.none) = _
    rw [parseNatTok_natChars _ _ h]
    show some (-(i.natAbs : Int), rest) = _
    rw [show -(i.natAbs : Int) = i from by omega]
  · rw [if_neg hneg]
    show parseIntTok (natChars i.natAbs ++ rest) = _
    obtain ⟨c, t, hct, hdig, _⟩ := natChars_shape i.natAbs
    have hcm : c ≠ '-' := by
      intro he
      rw [he] at hdig
      revert hdig
      decide
    rw [hct, List.cons_append]
    unfold parseIntTok
    split
    · rename_i t2 heq
      exfalso
      apply hcm
      have := congrArg (fun l => List.headD l ' ') heq
      simpa using this
    · rw [← List.cons_append, ← hct, parseNatTok_natChars _ _ h]
      show some ((i.natAbs : Int), rest) = _
      rw [show ((i.natAbs : Int)) = i from by omega]

/-! ### C6 support, part 2: string escapes invert escChar -/

theorem hexDigitVal_hexChar (d : Nat) (h : d < 16) : hexDigitVal (hexChar d) = some d := by
  unfold hexChar hexDigitVal
  by_cases h10 : d < 10
  · rw [if_pos h10, char_toNat_ofNat _ (Or.inl (by omega))]
    rw [if_pos (by simp; omega)]
    rw [show 48 + d - 48 = d from by omega]
  · rw [if_neg h10, char_toNat_ofNat _ (Or.inl (by omega))]
    rw [if_neg (by simp; omega), if_pos (by simp; omega)]
    rw [show 87 + d - 87 = d from by omega]

theorem char_valid_cases (c : Char) : c.toNat < 55296 ∨ (57344 ≤ c.toNat ∧ c.toNat < 1114112) :=
  c.valid

theorem char_ofNat_toNat (c : Char) : Char.ofNat c.toNat = c := by
  apply char_eq_of_toNat
  apply char_toNat_ofNat
  exact c.valid

theorem hex4_hexChars (w x y z : Nat) (hw : w < 16) (hx : x < 16) (hy : y < 16)
    (hz : z < 16) :
    hex4 (hexChar w) (hexChar x) (hexChar y) (hexChar z)
      = some (((w * 16 + x) * 16 + y) * 16 + z) := by
  unfold hex4
  rw [hexDigitVal_hexChar w hw, hexDigitVal_hexChar x hx, hexDigitVal_hexChar y hy,
    hexDigitVal_hexChar z hz]

theorem parseStrBody_quote (f : Nat) (acc t : List Char) :
    parseStrBody (f + 1) acc ('"' :: t) = some (String.mk acc.reverse, t) := rfl

theorem parseStrBody_lit (c : Char) (h1 : c ≠ '"') (h2 : c ≠ '\\') (h3 : 32 ≤ c.toNat)
    (f : Nat) (acc t : List Char) :
    parseStrBody (f + 1) acc (c :: t) = parseStrBody f (c :: acc) t := by
  show (if c = '"' then some (String.mk acc.reverse, t)
    else if c = '\\' then _
    else if c.toNat < 32 then Option.none
    else parseStrBody f (c :: acc) t) = _
  rw [if_neg h1, if_neg h2, if_neg (by omega)]

theorem parseStrBody_uescape (f : Nat) (a b c2 d : Char) (acc r : List Char) :
    parseStrBody (f + 1) acc ('\\' :: 'u' :: a :: b :: c2 :: d :: r)
      = (match hex4 a b c2 d with
         | some n =>
           if 55296 ≤ n && n ≤ 56319 then
             (match r with
              | s1 :: s2 :: a2 :: b2 :: c3 :: d2 :: r2 =>
                if s1 = '\\' && s2 = 'u' then
                  match hex4 a2 b2 c3 d2 with
                  | some m =>
                    if 56320 ≤ m && m ≤ 57343 then
                      parseStrBody f
                        (Char.ofNat (65536 + (n - 55296) * 1024 + (m - 56320)) :: acc) r2
                    else Option.none
                  | Option.none => Option.none
                else Option.none
              | _ => Option.none)
           else if 56320 ≤ n && n ≤ 57343 then Option.none
           else parseStrBody f (Char.ofNat n :: acc) r
         | Option.none => Option.none) := rfl

theorem parseStrBody_astral (f : Nat) (acc rest : List Char) (a b c2 d a2 b2 c3 d2 : Char) :
    parseStrBody (f + 1) acc
        ('\\' :: 'u' :: a :: b :: c2 :: d :: ('\\' :: 'u' :: a2 :: b2 :: c3 :: d2 :: rest))
      = (match hex4 a b c2 d with
         | some n =>
           if 55296 ≤ n && n ≤ 56319 then
             (match hex4 a2 b2 c3 d2 with
              | some m =>
                if 56320 ≤ m && m ≤ 57343 then
                  parseStrBody f
                    (Char.ofNat (65536 + (n - 55296) * 1024 + (m - 56320)) :: acc) rest
                else Option.none
              | Option.none => Option.none)
           else if 56320 ≤ n && n ≤ 57343 then Option.none
           else parseStrBody f (Char.ofNat n :: acc)
             ('\\' :: 'u' :: a2 :: b2 :: c3 :: d2 :: rest)
         | Option.none => Option.none) := by
  rw [parseStrBody_uescape]
  cases hh : hex4 a b c2 d with
  | none => rfl
  | some n =>
    by_cases hr : (55296 ≤ n && n ≤ 56319) = true
    · simp only [hr, if_true]
      rfl
    · simp only [hr, if_false]
      rfl

theorem parseStrBody_escChar (c : Char) (f : Nat) (acc rest : List Char) :
    parseStrBody (f + 1) acc (escChar c ++ rest) = parseStrBody f (c :: acc) rest := by
  unfold escChar
  by_cases h1 : c = '"'
  · rw [if_pos h1, h1]
    rfl
  · rw [if_neg h1]
    by_cases h2 : c = '\\'
    · rw [if_pos h2, h2]
      rfl
    · rw [if_neg h2]
      by_cases h3 : c = Char.ofNat 8
      · rw [if_pos h3, h3]
        rfl
      · rw [if_neg h3]
        by_cases h4 : c = Char.ofNat 9
        · rw [if_pos h4, h4]
          rfl
        · rw [if_neg h4]
          by_cases h5 : c = Char.ofNat 10
          · rw [if_pos h5, h5]
            rfl
          · rw [if_neg h5]
            by_cases h6 : c = Char.ofNat 12
            · rw [if_pos h6, h6]
              rfl
            · rw [if_neg h6]
              by_cases h7 : c = Char.ofNat 13
              · rw [if_pos h7, h7]
                rfl
              · rw [if_neg h7]
                by_cases h8 : (32 ≤ c.toNat && c.toNat ≤ 126) = true
                · rw [if_pos h8]
                  simp only [Bool.and_eq_true, decide_eq_true_eq] at h8
                  exact parseStrBody_lit c h1 h2 h8.1 f acc rest
                · rw [if_neg h8]
                  by_cases h9 : c.toNat < 65536
                  · rw [if_pos h9]
                    show parseStrBody (f + 1) acc
                      ('\\' :: 'u' :: hexChar (c.toNat / 4096 % 16)
                        :: hexChar (c.toNat / 256 % 16) :: hexChar (c.toNat / 16 % 16)
                        :: hexChar (c.toNat % 16) :: rest) = _
                    rw [parseStrBody_uescape]
                    simp only [hex4_hexChars _ _ _ _ (Nat.mod_lt _ (by omega))
                      (Nat.mod_lt _ (by omega)) (Nat.mod_lt _ (by omega))
                      (Nat.mod_lt _ (by omega))]
                    rw [show ((c.toNat / 4096 % 16 * 16 + c.toNat / 256 % 16) * 16
                        + c.toNat / 16 % 16) * 16 + c.toNat % 16 = c.toNat from by omega]
                    have hval := char_valid_cases c
                    rw [if_neg (by simp; omega), if_neg (by simp; omega), char_ofNat_toNat]
                  · rw [if_neg h9]
                    have hval := char_valid_cases c
                    have hup : c.toNat < 1114112 := by
                      rcases hval with h | h
                      · omega
                      · exact h.2
                    show parseStrBody (f + 1) acc
                      ('\\' :: 'u' :: hexChar ((55296 + (c.toNat - 65536) / 1024) / 4096 % 16)
                        :: hexChar ((55296 + (c.toNat - 65536) / 1024) / 256 % 16)
                        :: hexChar ((55296 + (c.toNat - 65536) / 1024) / 16 % 16)
                        :: hexChar ((55296 + (c.toNat - 65536) / 1024) % 16)
                        :: ('\\' :: 'u'
                          :: hexChar ((56320 + (c.toNat - 65536) % 1024) / 4096 % 16)
                          :: hexChar ((56320 + (c.toNat - 65536) % 1024) / 256 % 16)
                          :: hexChar ((56320 + (c.toNat - 65536) % 1024) / 16 % 16)
                          :: hexChar ((56320 + (c.toNat - 65536) % 1024) % 16) :: rest)) = _
                    rw [parseStrBody_astral]
                    simp only [hex4_hexChars _ _ _ _ (Nat.mod_lt _ (by omega))
                      (Nat.mod_lt _ (by omega)) (Nat.mod_lt _ (by omega))
                      (Nat.mod_lt _ (by omega))]
                    rw [show (((55296 + (c.toNat - 65536) / 1024) / 4096 % 16 * 16
                        + (55296 + (c.toNat - 65536) / 1024) / 256 % 16) * 16
                        + (55296 + (c.toNat - 65536) / 1024) / 16 % 16) * 16
                        + (55296 + (c.toNat - 65536) / 1024) % 16
                        = 55296 + (c.toNat - 65536) / 1024 from by omega]
                    rw [show (((56320 + (c.toNat - 65536) % 1024) / 4096 % 16 * 16
                        + (56320 + (c.toNat - 65536) % 1024) / 256 % 16) * 16
                        + (56320 + (c.toNat - 65536) % 1024) / 16 % 16) * 16
                        + (56320 + (c.toNat - 65536) % 1024) % 16
                        = 56320 + (c.toNat - 65536) % 1024 from by omega]
                    rw [if_pos (by simp; omega)]
                    rw [if_pos (by simp; omega)]
                    rw [show 65536 + (55296 + (c.toNat - 65536) / 1024 - 55296) * 1024
                        + (56320 + (c.toNat - 65536) % 1024 - 56320) = c.toNat from by omega]
                    rw [char_ofNat_toNat]

/-- Escaping then scanning a whole string body recovers it, character by
character, up to the closing quote. -/
theorem parseStrBody_escString (cs : List Char) : ∀ (f : Nat) (acc rest : List Char),
    cs.length < f →
    parseStrBody f acc (cs.flatMap escChar ++ '"' :: rest)
      = some (String.mk (acc.reverse ++ cs), rest) := by
  induction cs with
  | nil =>
    intro f acc rest hf
    obtain ⟨f2, rfl⟩ : ∃ f2, f = f2 + 1 := ⟨f - 1, by omega⟩
    show parseStrBody (f2 + 1) acc ('"' :: rest) = _
    rw [parseStrBody_quote, List.append_nil]
  | cons c t ih =>
    intro f acc rest hf
    obtain ⟨f2, rfl⟩ : ∃ f2, f = f2 + 1 := ⟨f - 1, by omega⟩
    rw [List.flatMap_cons, List.append_assoc, parseStrBody_escChar,
      ih f2 _ _ (by simp at hf; omega)]
    rw [show (c :: acc).reverse = acc.reverse ++ [c] from by simp, List.append_assoc]
    rfl

theorem string_mk_data (s : String) : String.mk s.data = s := rfl

theorem parseStrBody_strChars (s : String) (f : Nat) (acc rest : List Char)
    (hf : s.data.length < f) :
    parseStrBody f acc (s.data.flatMap escChar ++ '"' :: rest)
      = some (String.mk (acc.reverse ++ s.data), rest) :=
  parseStrBody_escString s.data f acc rest hf

/-! ### C6 support, part 3: the key order and canonical form -/

theorem charListLe_refl : ∀ l, charListLe l l = true
  | [] => rfl
  | c :: t => by
    have ih := charListLe_refl t
    simp [charListLe, ih]

theorem charListLe_total : ∀ a b, charListLe a b = true ∨ charListLe b a = true
  | [], _ => Or.inl rfl
  | _ :: _, [] => Or.inr rfl
  | x :: s, y :: t => by
    by_cases h1 : x.toNat < y.toNat
    · exact Or.inl (by simp [charListLe, h1])
    · by_cases h2 : y.toNat < x.toNat
      · exact Or.inr (by simp [charListLe, h2])
      · rcases charListLe_total s t with h | h
        · exact Or.inl (by simp [charListLe, h1, h2, h])
        · exact Or.inr (by simp [charListLe, h1, h2, h])

theorem charListLe_trans : ∀ a b c, charListLe a b = true → charListLe b c = true →
    charListLe a c = true
  | [], _, _, _, _ => rfl
  | _ :: _, [], _, hab, _ => by simp [charListLe] at hab
  | _ :: _, _ :: _, [], _, hbc => by simp [charListLe] at hbc
  | x :: s, y :: t, z :: u, hab, hbc => by
    simp only [charListLe] at hab hbc ⊢
    by_cases hxy : x.toNat < y.toNat
    · simp only [if_pos hxy] at hab
      by_cases hyz : y.toNat < z.toNat
      · rw [if_pos (by omega)]
      · by_cases hzy : z.toNat < y.toNat
        · rw [if_neg hyz, if_pos hzy] at hbc
          exact absurd hbc (by simp)
        · rw [if_pos (by omega)]
    · by_cases hyx : y.toNat < x.toNat
      · rw [if_neg hxy, if_pos hyx] at hab
        exact absurd hab (by simp)
      · rw [if_neg hxy, if_neg hyx] at hab
        by_cases hyz : y.toNat < z.toNat
        · rw [if_pos (by omega)]
        · by_cases hzy : z.toNat < y.toNat
          · rw [if_neg hyz, if_pos hzy] at hbc
            exact absurd hbc (by simp)
          · rw [if_neg hyz, if_neg hzy] at hbc
            rw [if_neg (by omega), if_neg (by omega)]
            exact charListLe_trans s t u hab hbc

instance : IsTotal (String × PyValue) kvLe :=
  ⟨fun a b => charListLe_total a.1.data b.1.data⟩

instance : IsTrans (String × PyValue) kvLe :=
  ⟨fun _ _ _ hab hbc => charListLe_trans _ _ _ hab hbc⟩

/-- kvSort permutes its input (sorted(...) is a reordering). -/
theorem kvSort_perm (l : List (String × PyValue)) : (kvSort l).Perm l :=
  List.perm_insertionSort kvLe l

/-- kvSort's output is pairwise ordered by the key order. -/
theorem kvSort_sorted (l : List (String × PyValue)) : (kvSort l).Pairwise kvLe :=
  List.sorted_insertionSort kvLe l

/-- Pairwise-distinct key list, as every real Python dict has: a PyValue
dict with a duplicated key stands for no Python value. -/
def keyNodupB : List String → Bool
  | [] => true
  | k :: t => (!t.contains k) && keyNodupB t

/-- Adjacent keys in ascending order. -/
def keyChainB : List String → Bool
  | [] => true
  | [_] => true
  | a :: b :: t => strLeB a b && keyChainB (b :: t)

mutual
/-- A well-formed JSON-representable payload: serializable (no opaque
object anywhere) and every dict carries pairwise distinct keys. -/
def jsonWF : PyValue → Bool
  | .none => true
  | .bool _ => true
  | .int _ => true
  | .str _ => true
  | .list xs => jsonWFElems xs
  | .dict kvs => keyNodupB (kvs.map Prod.fst) && jsonWFMembers kvs
  | .obj _ => false
def jsonWFElems : List PyValue → Bool
  | [] => true
  | x :: t => jsonWF x && jsonWFElems t
def jsonWFMembers : List (String × PyValue) → Bool
  | [] => true
  | (_, v) :: t => jsonWF v && jsonWFMembers t
end

mutual
/-- Every dict inside the value lists its keys in ascending order. -/
def keysSorted : PyValue → Bool
  | .none => true
  | .bool _ => true
  | .int _ => true
  | .str _ => true
  | .list xs => keysSortedElems xs
  | .dict kvs => keyChainB (kvs.map Prod.fst) && keysSortedMembers kvs
  | .obj _ => true
def keysSortedElems : List PyValue → Bool
  | [] => true
  | x :: t => keysSorted x && keysSortedElems t
def keysSortedMembers : List (String × PyValue) → Bool
  | [] => true
  | (_, v) :: t => keysSorted v && keysSortedMembers t
end

/-- Python dict lookup d[k]: the value stored at the first (hence, for a
real dict, the only) occurrence of k. -/
def pvLookup (k : String) : List (String × PyValue) → Option PyValue
  | [] => Option.none
  | (k0, v) :: t => if k0 = k then some v else pvLookup k t

mutual
/-- Node count of a value; it bounds every recursion fuel used below. -/
def pySize : PyValue → Nat
  | .none => 1
  | .bool _ => 1
  | .int _ => 1
  | .str _ => 1
  | .list xs => pySizeElems xs + 1
  | .dict kvs => pySizeMembers kvs + 1
  | .obj _ => 1
def pySizeElems : List PyValue → Nat
  | [] => 0
  | x :: t => pySize x + pySizeElems t + 1
def pySizeMembers : List (String × PyValue) → Nat
  | [] => 0
  | (_, v) :: t => pySize v + pySizeMembers t + 1
end

mutual
/-- Python == on two values, fuel-bounded: scalars compare by value,
lists pointwise, dicts as unordered key-value maps (same size and every
left entry found on the right with an equal value).  Any fuel at least
pySize of the left value yields the true answer. -/
def pyEqF : Nat → PyValue → PyValue → Bool
  | 0, _, _ => false
  | fuel + 1, a, b =>
    match a, b with
    | .none, .none => true
    | .bool x, .bool y => x == y
    | .int x, .int y => x == y
    | .str x, .str y => x == y
    | .list xs, .list ys => pyEqElemsF fuel xs ys
    | .dict xs, .dict ys => xs.length == ys.length && pyEqMembersF fuel xs ys
    | .obj x, .obj y => x == y
    | _, _ => false
def pyEqElemsF : Nat → List PyValue → List PyValue → Bool
  | _, [], [] => true
  | fuel + 1, x :: t, y :: u => pyEqF fuel x y && pyEqElemsF fuel t u
  | _, _, _ => false
def pyEqMembersF : Nat → List (String × PyValue) → List (String × PyValue) → Bool
  | _, [], _ => true
  | fuel + 1, (k, v) :: t, b =>
    (match pvLookup k b with
     | some v2 => pyEqF fuel v v2
     | Option.none => false) && pyEqMembersF fuel t b
  | 0, _ :: _, _ => false
end

/-- Python deep equality ==. -/
def pyEq (a b : PyValue) : Bool := pyEqF (pySize a) a b

theorem keyNodupB_iff : ∀ ks : List String, keyNodupB ks = true ↔ ks.Nodup
  | [] => by simp [keyNodupB]
  | k :: t => by
    simp [keyNodupB, List.nodup_cons, keyNodupB_iff t]

theorem keyChainB_of_pairwise : ∀ ks : List String,
    ks.Pairwise (fun a b => strLeB a b = true) → keyChainB ks = true
  | [], _ => rfl
  | [_], _ => rfl
  | a :: b :: t, h => by
    rw [List.pairwise_cons] at h
    have h1 : strLeB a b = true := h.1 b (by simp)
    have h2 := keyChainB_of_pairwise (b :: t) h.2
    simp [keyChainB, h1, h2]

/-- The sorted member list reads its keys off in ascending order. -/
theorem kvSort_keys_chain (l : List (String × PyValue)) :
    keyChainB ((kvSort l).map Prod.fst) = true :=
  keyChainB_of_pairwise _ ((kvSort_sorted l).map Prod.fst (fun _ _ h => h))

theorem canonElems_eq_map : ∀ xs, canonElems xs = xs.map canon
  | [] => rfl
  | x :: t => by simp only [canonElems, List.map_cons, canonElems_eq_map t]

theorem canonMembers_eq_map : ∀ kvs,
    canonMembers kvs = kvs.map (fun kv => (kv.1, canon kv.2))
  | [] => rfl
  | (_, _) :: t => by simp only [canonMembers, List.map_cons, canonMembers_eq_map t]

theorem jsonWFMembers_iff : ∀ l, jsonWFMembers l = true ↔ ∀ kv ∈ l, jsonWF kv.2 = true
  | [] => by simp [jsonWFMembers]
  | (k, v) :: t => by
    simp [jsonWFMembers, jsonWFMembers_iff t]

theorem keysSortedMembers_iff : ∀ l,
    keysSortedMembers l = true ↔ ∀ kv ∈ l, keysSorted kv.2 = true
  | [] => by simp [keysSortedMembers]
  | (k, v) :: t => by
    simp [keysSortedMembers, keysSortedMembers_iff t]

theorem pySizeMembers_eq_sum : ∀ l,
    pySizeMembers l = (l.map (fun kv => pySize kv.2 + 1)).sum
  | [] => rfl
  | (_, v) :: t => by
    simp only [pySizeMembers, List.map_cons, List.sum_cons, pySizeMembers_eq_sum t]
    omega

theorem pySizeMembers_perm (l1 l2 : List (String × PyValue)) (h : l1.Perm l2) :
    pySizeMembers l1 = pySizeMembers l2 := by
  rw [pySizeMembers_eq_sum, pySizeMembers_eq_sum]
  exact List.Perm.sum_eq (h.map _)

mutual
/-- Sorting the dicts does not change the node count. -/
theorem pySize_canon : ∀ p, pySize (canon p) = pySize p
  | .none => rfl
  | .bool _ => rfl
  | .int _ => rfl
  | .str _ => rfl
  | .obj _ => rfl
  | .list xs => by
    simp only [canon, pySize]
    rw [pySizeElems_canonElems xs]
  | .dict kvs => by
    simp only [canon, pySize]
    rw [pySizeMembers_perm _ _ (kvSort_perm (canonMembers kvs)),
      pySizeMembers_canonMembers kvs]
theorem pySizeElems_canonElems : ∀ xs, pySizeElems (canonElems xs) = pySizeElems xs
  | [] => rfl
  | x :: t => by
    simp only [canonElems, pySizeElems]
    rw [pySize_canon x, pySizeElems_canonElems t]
theorem pySizeMembers_canonMembers : ∀ kvs,
    pySizeMembers (canonMembers kvs) = pySizeMembers kvs
  | [] => rfl
  | (_, v) :: t => by
    simp only [canonMembers, pySizeMembers]
    rw [pySize_canon v, pySizeMembers_canonMembers t]
end

mutual
/-- Well-formed values are serializable. -/
theorem jsonWF_jsonOk : ∀ p, jsonWF p = true → jsonOk p = true
  | .none, _ => rfl
  | .bool _, _ => rfl
  | .int _, _ => rfl
  | .str _, _ => rfl
  | .obj _, h => by simp [jsonWF] at h
  | .list xs, h => by
    simp only [jsonWF] at h
    simp only [jsonOk]
    exact jsonWFElems_jsonOkElems xs h
  | .dict kvs, h => by
    simp only [jsonWF, Bool.and_eq_true] at h
    simp only [jsonOk]
    exact jsonWFMembers_jsonOkMembers kvs h.2
theorem jsonWFElems_jsonOkElems : ∀ xs, jsonWFElems xs = true → jsonOkElems xs = true
  | [], _ => rfl
  | x :: t, h => by
    simp only [jsonWFElems, Bool.and_eq_true] at h
    simp only [jsonOkElems, Bool.and_eq_true]
    exact ⟨jsonWF_jsonOk x h.1, jsonWFElems_jsonOkElems t h.2⟩
theorem jsonWFMembers_jsonOkMembers : ∀ kvs, jsonWFMembers kvs = true → jsonOkMembers kvs = true
  | [], _ => rfl
  | (_, v) :: t, h => by
    simp only [jsonWFMembers, Bool.and_eq_true] at h
    simp only [jsonOkMembers, Bool.and_eq_true]
    exact ⟨jsonWF_jsonOk v h.1, jsonWFMembers_jsonOkMembers t h.2⟩
end

mutual
/-- The canonical form of a well-formed value is well-formed. -/
theorem jsonWF_canon : ∀ p, jsonWF p = true → jsonWF (canon p) = true
  | .none, _ => rfl
  | .bool _, _ => rfl
  | .int _, _ => rfl
  | .str _, _ => rfl
  | .obj _, h => by simp [jsonWF] at h
  | .list xs, h => by
    simp only [jsonWF] at h
    simp only [canon, jsonWF]
    exact jsonWFElems_canon xs h
  | .dict kvs, h => by
    simp only [jsonWF, Bool.and_eq_true] at h
    obtain ⟨hnd, hm⟩ := h
    simp only [canon, jsonWF, Bool.and_eq_true]
    constructor
    · rw [keyNodupB_iff]
      have hperm := (kvSort_perm (canonMembers kvs)).map Prod.fst
      rw [hperm.nodup_iff, canonMembers_eq_map, List.map_map]
      have hc : (Prod.fst ∘ fun kv : String × PyValue => (kv.1, canon kv.2)) = Prod.fst := rfl
      rw [hc]
      exact (keyNodupB_iff _).mp hnd
    · rw [jsonWFMembers_iff]
      intro kv hkv
      exact (jsonWFMembers_iff _).mp (jsonWFMembers_canon kvs hm) kv
        ((kvSort_perm _).mem_iff.mp hkv)
theorem jsonWFElems_canon : ∀ xs, jsonWFElems xs = true → jsonWFElems (canonElems xs) = true
  | [], _ => rfl
  | x :: t, h => by
    simp only [jsonWFElems, Bool.and_eq_true] at h
    simp only [canonElems, jsonWFElems, Bool.and_eq_true]
    exact ⟨jsonWF_canon x h.1, jsonWFElems_canon t h.2⟩
theorem jsonWFMembers_canon : ∀ kvs, jsonWFMembers kvs = true →
    jsonWFMembers (canonMembers kvs) = true
  | [], _ => rfl
  | (_, v) :: t, h => by
    simp only [jsonWFMembers, Bool.and_eq_true] at h
    simp only [canonMembers, jsonWFMembers, Bool.and_eq_true]
    exact ⟨jsonWF_canon v h.1, jsonWFMembers_canon t h.2⟩
end

mutual
/-- Every dict inside the canonical form lists its keys in order. -/
theorem keysSorted_canon : ∀ p, keysSorted (canon p) = true
  | .none => rfl
  | .bool _ => rfl
  | .int _ => rfl
  | .str _ => rfl
  | .obj _ => rfl
  | .list xs => by
    simp only [canon, keysSorted]
    exact keysSortedElems_canon xs
  | .dict kvs => by
    simp only [canon, keysSorted, Bool.and_eq_true]
    refine ⟨kvSort_keys_chain _, ?_⟩
    rw [keysSortedMembers_iff]
    intro kv hkv
    exact (keysSortedMembers_iff _).mp (keysSortedMembers_canon kvs) kv
      ((kvSort_perm _).mem_iff.mp hkv)
theorem keysSortedElems_canon : ∀ xs, keysSortedElems (canonElems xs) = true
  | [] => rfl
  | x :: t => by
    simp only [canonElems, keysSortedElems, Bool.and_eq_true]
    exact ⟨keysSorted_canon x, keysSortedElems_canon t⟩
theorem keysSortedMembers_canon : ∀ kvs, keysSortedMembers (canonMembers kvs) = true
  | [] => rfl
  | (_, v) :: t => by
    simp only [canonMembers, keysSortedMembers, Bool.and_eq_true]
    exact ⟨keysSorted_canon v, keysSortedMembers_canon t⟩
end

/-- In a dict with pairwise distinct keys, lookup finds a stored pair. -/
theorem pvLookup_of_nodup : ∀ (l : List (String × PyValue)) (k : String) (v : PyValue),
    (l.map Prod.fst).Nodup → (k, v) ∈ l → pvLookup k l = some v
  | [], _, _, _, hm => by simp at hm
  | (k0, v0) :: t, k, v, hnd, hm => by
    rw [List.map_cons, List.nodup_cons] at hnd
    rcases List.mem_cons.mp hm with he | ht
    · injection he with h1 h2
      subst h1
      subst h2
      simp [pvLookup]
    · have hkmem : k ∈ t.map Prod.fst := List.mem_map.mpr ⟨(k, v), ht, rfl⟩
      have hk0 : k0 ≠ k := fun he => hnd.1 (he ▸ hkmem)
      simp only [pvLookup, if_neg hk0]
      exact pvLookup_of_nodup t k v hnd.2 ht

/-- Sufficient condition for the dict-member side of ==: every left entry
is found on the right with an equal value. -/
theorem pyEqMembersF_of : ∀ (g : Nat) (L b : List (String × PyValue)),
    pySizeMembers L ≤ g →
    (∀ kv ∈ L, ∃ v2, pvLookup kv.1 b = some v2 ∧
      ∀ f, pySize kv.2 ≤ f → pyEqF f kv.2 v2 = true) →
    pyEqMembersF g L b = true
  | g, [], _, _, _ => by cases g <;> rfl
  | g, (k, v) :: t, b, hsz, H => by
    simp only [pySizeMembers] at hsz
    obtain ⟨g2, rfl⟩ : ∃ g2, g = g2 + 1 := ⟨g - 1, by omega⟩
    obtain ⟨v2, hlk, hf⟩ := H (k, v) (by simp)
    simp only [pyEqMembersF, hlk, Bool.and_eq_true]
    constructor
    · exact hf g2 (by show pySize v ≤ g2; omega)
    · exact pyEqMembersF_of g2 t b (by omega) (fun kv hkv => H kv (by simp [hkv]))

mutual
/-- The canonical form of a well-formed value is Python-== to it, at any
sufficient fuel. -/
theorem pyEqF_canon : ∀ p, jsonWF p = true → ∀ f, pySize p ≤ f →
    pyEqF f (canon p) p = true
  | .none, _, f, hf => by
    obtain ⟨g, rfl⟩ : ∃ g, f = g + 1 := ⟨f - 1, by simp [pySize] at hf; omega⟩
    rfl
  | .bool b, _, f, hf => by
    obtain ⟨g, rfl⟩ : ∃ g, f = g + 1 := ⟨f - 1, by simp [pySize] at hf; omega⟩
    simp [canon, pyEqF]
  | .int n, _, f, hf => by
    obtain ⟨g, rfl⟩ : ∃ g, f = g + 1 := ⟨f - 1, by simp [pySize] at hf; omega⟩
    simp [canon, pyEqF]
  | .str s, _, f, hf => by
    obtain ⟨g, rfl⟩ : ∃ g, f = g + 1 := ⟨f - 1, by simp [pySize] at hf; omega⟩
    simp [canon, pyEqF]
  | .obj _, h, _, _ => by simp [jsonWF] at h
  | .list xs, h, f, hf => by
    simp only [jsonWF] at h
    obtain ⟨g, rfl⟩ : ∃ g, f = g + 1 := ⟨f - 1, by simp [pySize] at hf; omega⟩
    simp only [pySize] at hf
    simp only [canon, pyEqF]
    exact pyEqElemsF_canon xs h g (by omega)
  | .dict kvs, h, f, hf => by
    simp only [jsonWF, Bool.and_eq_true] at h
    obtain ⟨hnd, hm⟩ := h
    obtain ⟨g, rfl⟩ : ∃ g, f = g + 1 := ⟨f - 1, by simp [pySize] at hf; omega⟩
    simp only [pySize] at hf
    simp only [canon, pyEqF, Bool.and_eq_true]
    constructor
    · have h1 : (kvSort (canonMembers kvs)).length = kvs.length := by
        rw [(kvSort_perm _).length_eq, canonMembers_eq_map, List.length_map]
      simp [h1]
    · apply pyEqMembersF_of
      · rw [pySizeMembers_perm _ _ (kvSort_perm _), pySizeMembers_canonMembers]
        omega
      · intro kv hkv
        have hkv2 : kv ∈ canonMembers kvs := (kvSort_perm _).mem_iff.mp hkv
        rw [canonMembers_eq_map] at hkv2
        obtain ⟨⟨k0, v0⟩, hkv0, rfl⟩ := List.mem_map.mp hkv2
        refine ⟨v0, pvLookup_of_nodup kvs k0 v0 ((keyNodupB_iff _).mp hnd) hkv0, ?_⟩
        intro f2 hf2
        rw [pySize_canon] at hf2
        exact pyEqF_canonMembersAll kvs hm k0 v0 hkv0 f2 hf2
theorem pyEqElemsF_canon : ∀ xs, jsonWFElems xs = true → ∀ f, pySizeElems xs ≤ f →
    pyEqElemsF f (canonElems xs) xs = true
  | [], _, f, _ => by cases f <;> rfl
  | x :: t, h, f, hf => by
    simp only [jsonWFElems, Bool.and_eq_true] at h
    simp only [pySizeElems] at hf
    obtain ⟨g, rfl⟩ : ∃ g, f = g + 1 := ⟨f - 1, by omega⟩
    simp only [canonElems, pyEqElemsF, Bool.and_eq_true]
    exact ⟨pyEqF_canon x h.1 g (by omega), pyEqElemsF_canon t h.2 g (by omega)⟩
theorem pyEqF_canonMembersAll : ∀ kvs, jsonWFMembers kvs = true →
    ∀ k0 v0, (k0, v0) ∈ kvs → ∀ f, pySize v0 ≤ f → pyEqF f (canon v0) v0 = true
  | [], _, _, _, hm, _, _ => by simp at hm
  | (k1, v1) :: t, h, k0, v0, hm, f, hf => by
    simp only [jsonWFMembers, Bool.and_eq_true] at h
    rcases List.mem_cons.mp hm with he | ht
    · injection he with h1 h2
      rw [h2] at hf ⊢
      exact pyEqF_canon v1 h.1 f hf
    · exact pyEqF_canonMembersAll t h.2 k0 v0 ht f hf
end

/-- Sorting the dict keys yields a value Python-== to the original. -/
theorem pyEq_canon (p : PyValue) (h : jsonWF p = true) : pyEq (canon p) p = true := by
  unfold pyEq
  rw [pySize_canon]
  exact pyEqF_canon p h (pySize p) le_rfl

theorem pvInsert_notmem (k : String) (v : PyValue) (l : List (String × PyValue))
    (h : ∀ kv ∈ l, kv.1 ≠ k) : pvInsert k v l = l ++ [(k, v)] := by
  induction l with
  | nil => rfl
  | cons hd t ih =>
    have hne : hd.1 ≠ k := h hd (by simp)
    simp only [pvInsert, hne, if_false, List.cons_append]
    rw [ih (fun kv hkv => h kv (by simp [hkv]))]

theorem dictFromPairs_aux (items : List (String × PyValue)) : ∀ acc,
    (∀ kv ∈ items, ∀ kv2 ∈ acc, kv2.1 ≠ kv.1) →
    (items.map Prod.fst).Nodup →
    items.foldl (fun a kv => pvInsert kv.1 kv.2 a) acc = acc ++ items := by
  induction items with
  | nil => intro acc _ _; simp
  | cons hd t ih =>
    intro acc hdisj hnd
    rw [List.foldl_cons, pvInsert_notmem hd.1 hd.2 acc (fun kv hkv => hdisj hd (by simp) kv hkv)]
    simp only [List.map_cons, List.nodup_cons] at hnd
    rw [ih (acc ++ [(hd.1, hd.2)]) ?_ hnd.2]
    · simp
    · intro kv hkv kv2 hkv2
      rcases List.mem_append.mp hkv2 with ha | hb
      · exact hdisj kv (by simp [hkv]) kv2 ha
      · have : kv2 = (hd.1, hd.2) := by simpa using hb
        rw [this]
        intro he
        exact hnd.1 (he ▸ List.mem_map_of_mem Prod.fst hkv)

/-- dict(pairs) is the pair list itself when no key repeats. -/
theorem dictFromPairs_id (items : List (String × PyValue))
    (hnd : (items.map Prod.fst).Nodup) : dictFromPairs items = items := by
  unfold dictFromPairs
  rw [dictFromPairs_aux items [] (by intro kv _ kv2 h2; cases h2) hnd]
  simp

/-! ### C6 support, part 4: parsing a serialized value -/

theorem char_ne_of_toNat (a b : Char) (h : a.toNat ≠ b.toNat) : a ≠ b :=
  fun he => h (congrArg Char.toNat he)

theorem jsonWs_false_of_ge (c : Char) (h : 33 ≤ c.toNat) : jsonWs c = false := by
  unfold jsonWs
  simp only [Bool.or_eq_false_iff, decide_eq_false_iff_not]
  refine ⟨⟨⟨?_, ?_⟩, ?_⟩, ?_⟩ <;> intro he <;>
    (have h9 := congrArg Char.toNat he; simp at h9; omega)

theorem skipWs_cons (c : Char) (t : List Char) (h : jsonWs c = false) :
    skipWs (c :: t) = c :: t := by
  simp [skipWs, h]

theorem skipWs_cons_ws (c : Char) (t : List Char) (h : jsonWs c = true) :
    skipWs (c :: t) = skipWs t := by
  simp [skipWs, h]

/-- Every serializable value's rendering starts with a character that is
not whitespace, not a closing bracket and not a closing brace. -/
theorem dumpChars_head (v : PyValue) (hok : jsonOk v = true) :
    ∃ c t, dumpChars v = c :: t ∧ 34 ≤ c.toNat ∧ c.toNat ≠ 93 ∧ c.toNat ≠ 125 := by
  cases v with
  | none => refine ⟨'n', _, rfl, ?_, ?_, ?_⟩ <;> decide
  | bool b =>
    cases b with
    | true => refine ⟨'t', _, rfl, ?_, ?_, ?_⟩ <;> decide
    | false => refine ⟨'f', _, rfl, ?_, ?_, ?_⟩ <;> decide
  | int n =>
    by_cases hneg : n < 0
    · refine ⟨'-', natChars n.natAbs, ?_, by decide, by decide, by decide⟩
      show intChars n = _
      unfold intChars
      rw [if_pos hneg]
      rfl
    · obtain ⟨c, t, hct, hdig, _⟩ := natChars_shape n.natAbs
      have hr : 48 ≤ c.toNat ∧ c.toNat ≤ 57 := by
        unfold isDigitCh at hdig
        simp at hdig
        omega
      refine ⟨c, t, ?_, by omega, by omega, by omega⟩
      show intChars n = _
      unfold intChars
      rw [if_neg hneg, List.nil_append]
      exact hct
  | str s => refine ⟨'"', _, rfl, ?_, ?_, ?_⟩ <;> decide
  | list xs => refine ⟨'[', _, rfl, ?_, ?_, ?_⟩ <;> decide
  | dict kvs => refine ⟨'\x7b', _, rfl, ?_, ?_, ?_⟩ <;> decide
  | obj d => simp [jsonOk] at hok

theorem escChar_length_pos (c : Char) : 1 ≤ (escChar c).length := by
  unfold escChar
  repeat' split
  all_goals simp [hex4Chars]

theorem length_le_flatMap_escChar : ∀ l : List Char, l.length ≤ (l.flatMap escChar).length
  | [] => by simp
  | c :: t => by
    simp only [List.flatMap_cons, List.length_append, List.length_cons]
    have h1 := escChar_length_pos c
    have h2 := length_le_flatMap_escChar t
    omega

mutual
/-- The node count never exceeds the rendering's length. -/
theorem pySize_le_dump : ∀ v, jsonOk v = true → pySize v ≤ (dumpChars v).length
  | .none, _ => by simp [pySize, dumpChars, nullChars]
  | .bool true, _ => by simp [pySize, dumpChars, trueChars]
  | .bool false, _ => by simp [pySize, dumpChars, falseChars]
  | .int n, _ => by
    simp only [pySize, dumpChars]
    unfold intChars
    obtain ⟨c, t, hct, _, _⟩ := natChars_shape n.natAbs
    rw [hct]
    by_cases hneg : n < 0 <;> simp [hneg]
  | .str s, _ => by
    simp only [pySize, dumpChars]
    unfold strChars
    simp
  | .list xs, h => by
    simp only [jsonOk] at h
    have := pySizeElems_le_dump xs h
    simp only [pySize, dumpChars, List.length_cons, List.length_append]
    simp
    omega
  | .dict kvs, h => by
    simp only [jsonOk] at h
    have := pySizeMembers_le_dump kvs h
    simp only [pySize, dumpChars, List.length_cons, List.length_append]
    simp
    omega
  | .obj _, h => by simp [jsonOk] at h
theorem pySizeElems_le_dump : ∀ xs, jsonOkElems xs = true →
    pySizeElems xs ≤ (dumpElems xs).length + 1
  | [], _ => by simp [pySizeElems, dumpElems]
  | [x], h => by
    simp only [jsonOkElems, Bool.and_eq_true] at h
    have := pySize_le_dump x h.1
    simp only [pySizeElems, dumpElems]
    omega
  | x :: y :: t, h => by
    simp only [jsonOkElems, Bool.and_eq_true] at h
    have h1 := pySize_le_dump x h.1
    have h2 := pySizeElems_le_dump (y :: t) (by
      simp only [jsonOkElems, Bool.and_eq_true]
      exact h.2)
    simp only [pySizeElems, dumpElems, List.length_append, List.length_cons] at h2 ⊢
    omega
theorem pySizeMembers_le_dump : ∀ kvs, jsonOkMembers kvs = true →
    pySizeMembers kvs ≤ (dumpMembers kvs).length + 1
  | [], _ => by simp [pySizeMembers, dumpMembers]
  | [(k, v)], h => by
    simp only [jsonOkMembers, Bool.and_eq_true] at h
    have := pySize_le_dump v h.1
    simp only [pySizeMembers, dumpMembers, List.length_append, List.length_cons]
    omega
  | (k, v) :: m :: t, h => by
    simp only [jsonOkMembers, Bool.and_eq_true] at h
    have h1 := pySize_le_dump v h.1
    have h2 := pySizeMembers_le_dump (m :: t) (by
      simp only [jsonOkMembers, Bool.and_eq_true]
      exact h.2)
    simp only [pySizeMembers, dumpMembers, List.length_append, List.length_cons] at h2 ⊢
    omega
end

/-- The number branch of the value parser, for a digit-headed input. -/
theorem parseVal_digitHead (f : Nat) (cs : List Char) (c : Char) (t : List Char)
    (hcs : skipWs cs = c :: t) (hc : isDigitCh c = true) :
    parseVal (f + 1) cs = (match parseIntTok (c :: t) with
      | some (n, r2) => some (PyValue.int n, r2)
      | Option.none => Option.none) := by
  have htn : 48 ≤ c.toNat ∧ c.toNat ≤ 57 := by
    unfold isDigitCh at hc
    simp at hc
    omega
  simp only [parseVal]
  rw [hcs]
  split
  · rename_i r heq
    exfalso
    have := congrArg (fun l => List.headD l ' ') heq
    simp at this
    have := congrArg Char.toNat this
    simp at this
    omega
  · rename_i r heq
    exfalso
    have := congrArg (fun l => List.headD l ' ') heq
    simp at this
    have := congrArg Char.toNat this
    simp at this
    omega
  · rename_i r heq
    exfalso
    have := congrArg (fun l => List.headD l ' ') heq
    simp at this
    have := congrArg Char.toNat this
    simp at this
    omega
  · rename_i r heq
    exfalso
    have := congrArg (fun l => List.headD l ' ') heq
    simp at this
    have := congrArg Char.toNat this
    simp at this
    omega
  · rename_i r heq
    exfalso
    have := congrArg (fun l => List.headD l ' ') heq
    simp at this
    have := congrArg Char.toNat this
    simp at this
    omega
  · rename_i r heq
    exfalso
    have := congrArg (fun l => List.headD l ' ') heq
    simp at this
    have := congrArg Char.toNat this
    simp at this
    omega
  · rename_i cc rr d1 d2 d3 d4 d5 d6 heq
    injection heq with h1 h2
    rw [← h1, ← h2]
    rw [if_pos (by simp [hc])]
  · rename_i heq
    exact absurd heq (by simp)

/-- The array branch of the value parser on a nonempty body. -/
theorem parseVal_list_cons (f : Nat) (cs r : List Char) (c : Char) (t : List Char)
    (hcs : skipWs cs = '[' :: r) (hr : skipWs r = c :: t) (hne : c ≠ ']') :
    parseVal (f + 1) cs = (match parseElems f (c :: t) with
      | some (xs, r3) => some (PyValue.list xs, r3)
      | Option.none => Option.none) := by
  simp only [parseVal]
  rw [hcs]
  show (match skipWs r with
    | ']' :: r2 => some (PyValue.list [], r2)
    | r2 =>
      match parseElems f r2 with
      | some (xs, r3) => some (PyValue.list xs, r3)
      | Option.none => Option.none) = _
  rw [hr]
  split
  · rename_i r2 heq
    exfalso
    have := congrArg (fun l => List.headD l ' ') heq
    simp at this
    exact hne this
  · rfl

/-- The object branch of the value parser on a nonempty body. -/
theorem parseVal_dict_cons (f : Nat) (cs r : List Char) (c : Char) (t : List Char)
    (hcs : skipWs cs = '\x7b' :: r) (hr : skipWs r = c :: t) (hne : c ≠ '\x7d') :
    parseVal (f + 1) cs = (match parseMembers f (c :: t) with
      | some (kvs, r3) => some (PyValue.dict (dictFromPairs kvs), r3)
      | Option.none => Option.none) := by
  simp only [parseVal]
  rw [hcs]
  show (match skipWs r with
    | '\x7d' :: r2 => some (PyValue.dict [], r2)
    | r2 =>
      match parseMembers f r2 with
      | some (kvs, r3) => some (PyValue.dict (dictFromPairs kvs), r3)
      | Option.none => Option.none) = _
  rw [hr]
  split
  · rename_i r2 heq
    exfalso
    have := congrArg (fun l => List.headD l ' ') heq
    simp at this
    exact hne this
  · rfl

theorem skipWs_dumpChars (v : PyValue) (hok : jsonOk v = true) (X : List Char) :
    skipWs (dumpChars v ++ X) = dumpChars v ++ X := by
  obtain ⟨c, t0, hd, hge, _, _⟩ := dumpChars_head v hok
  rw [hd, List.cons_append]
  exact skipWs_cons c _ (jsonWs_false_of_ge c (by omega))

theorem dumpElems_cons_eq (y : PyValue) (ys : List PyValue) :
    ∃ suff, dumpElems (y :: ys) = dumpChars y ++ suff := by
  cases ys with
  | nil => exact ⟨[], by simp [dumpElems]⟩
  | cons z t => exact ⟨',' :: ' ' :: dumpElems (z :: t), rfl⟩

theorem skipWs_dumpElems (y : PyValue) (ys : List PyValue) (hok : jsonOk y = true)
    (X : List Char) :
    skipWs (dumpElems (y :: ys) ++ X) = dumpElems (y :: ys) ++ X := by
  obtain ⟨suff, hsf⟩ := dumpElems_cons_eq y ys
  rw [hsf, List.append_assoc]
  exact skipWs_dumpChars y hok (suff ++ X)

theorem dumpMembers_cons_eq (kv : String × PyValue) (kvs : List (String × PyValue)) :
    ∃ t2, dumpMembers (kv :: kvs) = '"' :: t2 := by
  cases kv with
  | mk k v =>
    cases kvs with
    | nil => exact ⟨(k.data.flatMap escChar ++ ['"']) ++ (':' :: ' ' :: dumpChars v), rfl⟩
    | cons m t =>
      exact ⟨(k.data.flatMap escChar ++ ['"'])
        ++ (':' :: ' ' :: (dumpChars v ++ (',' :: ' ' :: dumpMembers (m :: t)))), rfl⟩

theorem skipWs_dumpMembers (kv : String × PyValue) (kvs : List (String × PyValue))
    (X : List Char) :
    skipWs (dumpMembers (kv :: kvs) ++ X) = dumpMembers (kv :: kvs) ++ X := by
  obtain ⟨t2, hh⟩ := dumpMembers_cons_eq kv kvs
  rw [hh, List.cons_append]
  exact skipWs_cons '"' _ (by decide)


mutual
/-- Parsing a well-formed value's rendering returns the value itself. -/
theorem parseVal_dump : ∀ v, jsonWF v = true → ∀ f cs rest, pySize v ≤ f →
    followOk rest = true → skipWs cs = dumpChars v ++ rest →
    parseVal f cs = some (v, rest)
  | .none, _, f, cs, rest, hf, _, hcs => by
    obtain ⟨g, rfl⟩ : ∃ g, f = g + 1 := ⟨f - 1, by simp [pySize] at hf; omega⟩
    simp only [parseVal]
    rw [hcs]
    rfl
  | .bool true, _, f, cs, rest, hf, _, hcs => by
    obtain ⟨g, rfl⟩ : ∃ g, f = g + 1 := ⟨f - 1, by simp [pySize] at hf; omega⟩
    simp only [parseVal]
    rw [hcs]
    rfl
  | .bool false, _, f, cs, rest, hf, _, hcs => by
    obtain ⟨g, rfl⟩ : ∃ g, f = g + 1 := ⟨f - 1, by simp [pySize] at hf; omega⟩
    simp only [parseVal]
    rw [hcs]
    rfl
  | .int n, _, f, cs, rest, hf, hfo, hcs => by
    obtain ⟨g, rfl⟩ : ∃ g, f = g + 1 := ⟨f - 1, by simp [pySize] at hf; omega⟩
    by_cases hneg : n < 0
    · have hic : dumpChars (PyValue.int n) = '-' :: natChars n.natAbs := by
        show intChars n = _
        unfold intChars
        rw [if_pos hneg]
        rfl
      rw [hic] at hcs
      simp only [parseVal]
      rw [hcs]
      show (match parseIntTok ('-' :: (natChars n.natAbs ++ rest)) with
        | some (n2, r2) => some (PyValue.int n2, r2)
        | Option.none => Option.none) = _
      rw [show '-' :: (natChars n.natAbs ++ rest) = intChars n ++ rest from by
        unfold intChars
        rw [if_pos hneg]
        simp]
      rw [parseIntTok_intChars n rest hfo]
    · have hic : dumpChars (PyValue.int n) = natChars n.natAbs := by
        show intChars n = _
        unfold intChars
        rw [if_neg hneg]
        simp
      rw [hic] at hcs
      obtain ⟨c, t, hct, hdig, _⟩ := natChars_shape n.natAbs
      rw [hct, List.cons_append] at hcs
      rw [parseVal_digitHead g cs c (t ++ rest) hcs hdig]
      rw [show c :: (t ++ rest) = intChars n ++ rest from by
        rw [← List.cons_append, ← hct]
        unfold intChars
        rw [if_neg hneg]
        simp]
      rw [parseIntTok_intChars n rest hfo]
  | .str s, _, f, cs, rest, hf, _, hcs => by
    obtain ⟨g, rfl⟩ : ∃ g, f = g + 1 := ⟨f - 1, by simp [pySize] at hf; omega⟩
    have hic : dumpChars (PyValue.str s) ++ rest
        = '"' :: (s.data.flatMap escChar ++ ('"' :: rest)) := by
      show strChars s ++ rest = _
      unfold strChars
      simp
    rw [hic] at hcs
    simp only [parseVal]
    rw [hcs]
    show (match parseStrBody ((s.data.flatMap escChar ++ ('"' :: rest)).length + 1) []
        (s.data.flatMap escChar ++ ('"' :: rest)) with
      | some (s2, r2) => some (PyValue.str s2, r2)
      | Option.none => Option.none) = _
    rw [parseStrBody_strChars s _ [] rest (by
      have := length_le_flatMap_escChar s.data
      simp only [List.length_append, List.length_cons]
      omega)]
    rfl
  | .list [], _, f, cs, rest, hf, _, hcs => by
    obtain ⟨g, rfl⟩ : ∃ g, f = g + 1 := ⟨f - 1, by simp [pySize] at hf; omega⟩
    simp only [parseVal]
    rw [hcs]
    rfl
  | .list (x :: xs), h, f, cs, rest, hf, hfo, hcs => by
    simp only [jsonWF] at h
    have hx : jsonWF x = true := by
      simp only [jsonWFElems, Bool.and_eq_true] at h
      exact h.1
    obtain ⟨g, rfl⟩ : ∃ g, f = g + 1 := ⟨f - 1, by simp [pySize] at hf; omega⟩
    simp only [pySize] at hf
    have hok : jsonOk x = true := jsonWF_jsonOk x hx
    obtain ⟨suff, hsf⟩ := dumpElems_cons_eq x xs
    obtain ⟨c, t0, hdx, hge, h93, h125⟩ := dumpChars_head x hok
    have hflat : dumpElems (x :: xs) ++ (']' :: rest) = c :: (t0 ++ (suff ++ (']' :: rest))) := by
      rw [hsf, hdx]
      simp
    have hcs2 : skipWs cs = '[' :: (dumpElems (x :: xs) ++ (']' :: rest)) := by
      rw [hcs]
      show dumpChars (PyValue.list (x :: xs)) ++ rest = _
      simp only [dumpChars]
      simp
    have hr : skipWs (dumpElems (x :: xs) ++ (']' :: rest))
        = c :: (t0 ++ (suff ++ (']' :: rest))) := by
      rw [hflat]
      exact skipWs_cons c _ (jsonWs_false_of_ge c (by omega))
    rw [parseVal_list_cons g cs _ c _ hcs2 hr
      (char_ne_of_toNat c ']' (by have h2 : (']').toNat = 93 := rfl; omega))]
    rw [← hflat]
    rw [parseElems_dump (x :: xs) (by simp) h g _ rest (by omega)
      (hr.trans hflat.symm)]
  | .dict [], _, f, cs, rest, hf, _, hcs => by
    obtain ⟨g, rfl⟩ : ∃ g, f = g + 1 := ⟨f - 1, by simp [pySize] at hf; omega⟩
    simp only [parseVal]
    rw [hcs]
    rfl
  | .dict (kv :: kvs), h, f, cs, rest, hf, hfo, hcs => by
    simp only [jsonWF, Bool.and_eq_true] at h
    obtain ⟨g, rfl⟩ : ∃ g, f = g + 1 := ⟨f - 1, by simp [pySize] at hf; omega⟩
    simp only [pySize] at hf
    obtain ⟨t2, hh⟩ := dumpMembers_cons_eq kv kvs
    have hflat : dumpMembers (kv :: kvs) ++ ('\x7d' :: rest)
        = '"' :: (t2 ++ ('\x7d' :: rest)) := by
      rw [hh]
      simp
    have hcs2 : skipWs cs = '\x7b' :: (dumpMembers (kv :: kvs) ++ ('\x7d' :: rest)) := by
      rw [hcs]
      show dumpChars (PyValue.dict (kv :: kvs)) ++ rest = _
      simp only [dumpChars]
      simp
    have hr : skipWs (dumpMembers (kv :: kvs) ++ ('\x7d' :: rest))
        = '"' :: (t2 ++ ('\x7d' :: rest)) := by
      rw [hflat]
      exact skipWs_cons '"' _ (by decide)
    rw [parseVal_dict_cons g cs _ '"' _ hcs2 hr (by decide)]
    rw [← hflat]
    rw [parseMembers_dump (kv :: kvs) (by simp) h.2 g _ rest (by omega)
      (hr.trans hflat.symm)]
    show some (PyValue.dict (dictFromPairs (kv :: kvs)), rest) = _
    rw [dictFromPairs_id _ ((keyNodupB_iff _).mp h.1)]
  | .obj d, h, _, _, _, _, _, _ => by simp [jsonWF] at h
theorem parseElems_dump : ∀ xs, xs ≠ [] → jsonWFElems xs = true → ∀ f cs rest,
    pySizeElems xs ≤ f → skipWs cs = dumpElems xs ++ (']' :: rest) →
    parseElems f cs = some (xs, rest)
  | [], hne, _, _, _, _, _, _ => absurd rfl hne
  | [x], _, h, f, cs, rest, hf, hcs => by
    simp only [jsonWFElems, Bool.and_eq_true] at h
    obtain ⟨g, rfl⟩ : ∃ g, f = g + 1 := ⟨f - 1, by simp [pySizeElems] at hf; omega⟩
    simp only [pySizeElems] at hf
    simp only [parseElems]
    rw [parseVal_dump x h.1 g cs (']' :: rest) (by omega) rfl
      (by rw [hcs]; simp [dumpElems])]
    rfl
  | x :: y :: t, _, h, f, cs, rest, hf, hcs => by
    simp only [jsonWFElems, Bool.and_eq_true] at h
    obtain ⟨g, rfl⟩ : ∃ g, f = g + 1 := ⟨f - 1, by simp [pySizeElems] at hf; omega⟩
    simp only [pySizeElems] at hf
    simp only [parseElems]
    rw [parseVal_dump x h.1 g cs (',' :: (' ' :: (dumpElems (y :: t) ++ (']' :: rest))))
      (by omega) rfl
      (by rw [hcs]; simp [dumpElems])]
    show (match parseElems g (' ' :: (dumpElems (y :: t) ++ (']' :: rest))) with
      | some (xs2, r3) => some (x :: xs2, r3)
      | Option.none => Option.none) = _
    rw [parseElems_dump (y :: t) (by simp) (by
        simp only [jsonWFElems, Bool.and_eq_true]
        exact ⟨h.2.1, h.2.2⟩) g _ rest (by simp only [pySizeElems]; omega)
      (by
        rw [skipWs_cons_ws ' ' _ (by decide)]
        exact skipWs_dumpElems y t (jsonWF_jsonOk y h.2.1) (']' :: rest))]
theorem parseMembers_dump : ∀ kvs, kvs ≠ [] → jsonWFMembers kvs = true → ∀ f cs rest,
    pySizeMembers kvs ≤ f → skipWs cs = dumpMembers kvs ++ ('\x7d' :: rest) →
    parseMembers f cs = some (kvs, rest)
  | [], hne, _, _, _, _, _, _ => absurd rfl hne
  | [(k, v)], _, h, f, cs, rest, hf, hcs => by
    simp only [jsonWFMembers, Bool.and_eq_true] at h
    obtain ⟨g, rfl⟩ : ∃ g, f = g + 1 := ⟨f - 1, by simp [pySizeMembers] at hf; omega⟩
    simp only [pySizeMembers] at hf
    have hcs2 : skipWs cs = '"' :: (k.data.flatMap escChar
        ++ ('"' :: (':' :: ' ' :: (dumpChars v ++ ('\x7d' :: rest))))) := by
      rw [hcs]
      simp [dumpMembers, strChars]
    simp only [parseMembers]
    rw [hcs2]
    show (match parseStrBody ((k.data.flatMap escChar
        ++ ('"' :: (':' :: ' ' :: (dumpChars v ++ ('\x7d' :: rest))))).length + 1) []
        (k.data.flatMap escChar ++ ('"' :: (':' :: ' ' :: (dumpChars v ++ ('\x7d' :: rest))))) with
      | some (k2, r1) =>
        match skipWs r1 with
        | ':' :: r2 =>
          match parseVal g r2 with
          | some (v2, r3) =>
            match skipWs r3 with
            | ',' :: r4 =>
              match parseMembers g r4 with
              | some (kvs2, r5) => some ((k2, v2) :: kvs2, r5)
              | Option.none => Option.none
            | '\x7d' :: r4 => some ([(k2, v2)], r4)
            | _ => Option.none
          | Option.none => Option.none
        | _ => Option.none
      | Option.none => Option.none) = _
    rw [parseStrBody_strChars k _ [] (':' :: ' ' :: (dumpChars v ++ ('\x7d' :: rest))) (by
      have := length_le_flatMap_escChar k.data
      simp only [List.length_append, List.length_cons]
      omega)]
    show (match parseVal g (' ' :: (dumpChars v ++ ('\x7d' :: rest))) with
      | some (v2, r3) =>
        match skipWs r3 with
        | ',' :: r4 =>
          match parseMembers g r4 with
          | some (kvs2, r5) => some ((k, v2) :: kvs2, r5)
          | Option.none => Option.none
        | '\x7d' :: r4 => some ([(k, v2)], r4)
        | _ => Option.none
      | Option.none => Option.none) = _
    rw [parseVal_dump v h.1 g _ ('\x7d' :: rest) (by omega) rfl
      (by
        rw [skipWs_cons_ws ' ' _ (by decide)]
        exact skipWs_dumpChars v (jsonWF_jsonOk v h.1) ('\x7d' :: rest))]
    rfl
  | (k, v) :: m :: t, _, h, f, cs, rest, hf, hcs => by
    simp only [jsonWFMembers, Bool.and_eq_true] at h
    obtain ⟨g, rfl⟩ : ∃ g, f = g + 1 := ⟨f - 1, by simp [pySizeMembers] at hf; omega⟩
    simp only [pySizeMembers] at hf
    have hcs2 : skipWs cs = '"' :: (k.data.flatMap escChar
        ++ ('"' :: (':' :: ' ' :: (dumpChars v
          ++ (',' :: ' ' :: (dumpMembers (m :: t) ++ ('\x7d' :: rest))))))) := by
      rw [hcs]
      simp [dumpMembers, strChars]
    simp only [parseMembers]
    rw [hcs2]
    show (match parseStrBody ((k.data.flatMap escChar
        ++ ('"' :: (':' :: ' ' :: (dumpChars v
          ++ (',' :: ' ' :: (dumpMembers (m :: t) ++ ('\x7d' :: rest))))))).length + 1) []
        (k.data.flatMap escChar ++ ('"' :: (':' :: ' ' :: (dumpChars v
          ++ (',' :: ' ' :: (dumpMembers (m :: t) ++ ('\x7d' :: rest))))))) with
      | some (k2, r1) =>
        match skipWs r1 with
        | ':' :: r2 =>
          match parseVal g r2 with
          | some (v2, r3) =>
            match skipWs r3 with
            | ',' :: r4 =>
              match parseMembers g r4 with
              | some (kvs2, r5) => some ((k2, v2) :: kvs2, r5)
              | Option.none => Option.none
            | '\x7d' :: r4 => some ([(k2, v2)], r4)
            | _ => Option.none
          | Option.none => Option.none
        | _ => Option.none
      | Option.none => Option.none) = _
    rw [parseStrBody_strChars k _ []
      (':' :: ' ' :: (dumpChars v ++ (',' :: ' ' :: (dumpMembers (m :: t) ++ ('\x7d' :: rest)))))
      (by
        have := length_le_flatMap_escChar k.data
        simp only [List.length_append, List.length_cons]
        omega)]
    show (match parseVal g (' ' :: (dumpChars v
        ++ (',' :: ' ' :: (dumpMembers (m :: t) ++ ('\x7d' :: rest))))) with
      | some (v2, r3) =>
        match skipWs r3 with
        | ',' :: r4 =>
          match parseMembers g r4 with
          | some (kvs2, r5) => some ((k, v2) :: kvs2, r5)
          | Option.none => Option.none
        | '\x7d' :: r4 => some ([(k, v2)], r4)
        | _ => Option.none
      | Option.none => Option.none) = _
    rw [parseVal_dump v h.1 g _
      (',' :: (' ' :: (dumpMembers (m :: t) ++ ('\x7d' :: rest)))) (by omega) rfl
      (by
        rw [skipWs_cons_ws ' ' _ (by decide)]
        have := skipWs_dumpChars v (jsonWF_jsonOk v h.1)
          (',' :: ' ' :: (dumpMembers (m :: t) ++ ('\x7d' :: rest)))
        simpa using this)]
    show (match parseMembers g (' ' :: (dumpMembers (m :: t) ++ ('\x7d' :: rest))) with
      | some (kvs2, r5) => some ((k, v) :: kvs2, r5)
      | Option.none => Option.none) = _
    rw [parseMembers_dump (m :: t) (by simp) (by
        simp only [jsonWFMembers, Bool.and_eq_true]
        exact ⟨h.2.1, h.2.2⟩) g _ rest (by simp only [pySizeMembers]; omega)
      (by
        rw [skipWs_cons_ws ' ' _ (by decide)]
        exact skipWs_dumpMembers m t ('\x7d' :: rest))]
end

/-- json.loads inverts the stored body of a serializable payload, up to
key sorting. -/
theorem jsonLoads_bodyOf (p : PyValue) (h : jsonWF p = true) :
    jsonLoads (bodyOf p) = some (canon p) := by
  have hok : jsonOk p = true := jsonWF_jsonOk p h
  have hokc : jsonOk (canon p) = true := jsonWF_jsonOk _ (jsonWF_canon p h)
  have hbody : bodyOf p = String.mk (dumpChars (canon p)) := by
    unfold bodyOf jsonDumps
    rw [if_pos hok]
  rw [hbody]
  unfold jsonLoads
  have hdata : (String.mk (dumpChars (canon p))).data = dumpChars (canon p) := rfl
  rw [hdata]
  rw [parseVal_dump (canon p) (jsonWF_canon p h) ((dumpChars (canon p)).length + 1)
    (dumpChars (canon p)) [] (by have := pySize_le_dump (canon p) hokc; omega) rfl
    (by simpa using skipWs_dumpChars (canon p) hokc [])]
  rfl

/-- C6: for every well-formed JSON-representable request payload (a value
built of None, bool, int, str, list and dict, with pairwise distinct keys
in every dict, as every real Python dict has), the stored requestBody
round-trips: json.loads of the stored string succeeds and yields the
payload's canonical form, which is deep-equal (Python ==) to the original
payload, and every dict in the stored serialization lists its keys in
sorted order. -/
theorem request_body_roundtrip (p : PyValue) (d : Nat) (req : Request) (resp : Response)
    (ro : Owner) (h : jsonWF p = true) :
    (mkExchange d req resp ro (some p)).requestBody = bodyOf p
    ∧ jsonLoads (bodyOf p) = some (canon p)
    ∧ pyEq (canon p) p = true
    ∧ keysSorted (canon p) = true :=
  ⟨rfl, jsonLoads_bodyOf p h, pyEq_canon p h, keysSorted_canon p⟩

/-- Witness for C6 at a concrete nested payload with unsorted keys. -/
theorem request_body_roundtrip_witness :
    jsonWF (PyValue.dict [("b", PyValue.int 1),
      ("a", PyValue.list [PyValue.int 2, PyValue.str "x"])]) = true
    ∧ ((mkExchange 0 reqEmpty respEmpty (Owner.integration 1)
        (some (PyValue.dict [("b", PyValue.int 1),
          ("a", PyValue.list [PyValue.int 2, PyValue.str "x"])]))).requestBody
      = bodyOf (PyValue.dict [("b", PyValue.int 1),
          ("a", PyValue.list [PyValue.int 2, PyValue.str "x"])])
    ∧ jsonLoads (bodyOf (PyValue.dict [("b", PyValue.int 1),
        ("a", PyValue.list [PyValue.int 2, PyValue.str "x"])]))
      = some (canon (PyValue.dict [("b", PyValue.int 1),
          ("a", PyValue.list [PyValue.int 2, PyValue.str "x"])]))
    ∧ pyEq (canon (PyValue.dict [("b", PyValue.int 1),
        ("a", PyValue.list [PyValue.int 2, PyValue.str "x"])]))
        (PyValue.dict [("b", PyValue.int 1),
          ("a", PyValue.list [PyValue.int 2, PyValue.str "x"])]) = true
    ∧ keysSorted (canon (PyValue.dict [("b", PyValue.int 1),
        ("a", PyValue.list [PyValue.int 2, PyValue.str "x"])])) = true) :=
  ⟨rfl, request_body_roundtrip _ 0 reqEmpty respEmpty (Owner.integration 1) rfl⟩

/-- C7: formatted_json tries json.loads on the stored body string; on
success it returns the 2-space-indented rendering of the parsed value's
canonical form, whose dicts all list their keys in sorted order; on
failure it returns the stored string unchanged.  It is a total function
of the stored string, so it never raises on malformed input. -/
theorem formatted_json_rule (value : String) :
    (∀ v, jsonLoads value = some v →
      formattedJson value = String.mk (dumpIndent 0 (canon v))
        ∧ keysSorted (canon v) = true)
    ∧ (jsonLoads value = Option.none → formattedJson value = value) := by
  constructor
  · intro v hv
    refine ⟨?_, keysSorted_canon v⟩
    unfold formattedJson
    rw [hv]
  · intro hv
    unfold formattedJson
    rw [hv]

/-- Witness for C7: a parseable body is re-rendered indented with sorted
keys (note the Python 2 trailing space after the item separator), and a
non-JSON body comes back unchanged. -/
theorem formatted_json_rule_witness :
    (jsonLoads "\x7b\"b\":1, \"a\":2\x7d"
        = some (PyValue.dict [("b", PyValue.int 1), ("a", PyValue.int 2)])
      ∧ formattedJson "\x7b\"b\":1, \"a\":2\x7d" = "\x7b\n  \"a\": 2, \n  \"b\": 1\n\x7d"
      ∧ keysSorted (canon (PyValue.dict [("b", PyValue.int 1), ("a", PyValue.int 2)])) = true)
    ∧ (jsonLoads "not json" = Option.none ∧ formattedJson "not json" = "not json") := by
  have h1 := (formatted_json_rule "\x7b\"b\":1, \"a\":2\x7d").1
    (PyValue.dict [("b", PyValue.int 1), ("a", PyValue.int 2)]) rfl
  have h2 := (formatted_json_rule "not json").2 rfl
  exact ⟨⟨rfl, h1.1.trans rfl, h1.2⟩, ⟨rfl, h2⟩⟩

end RTD
